import Mathlib

/-!
Verification of the queue producer/consumer protocol logic of
`src/workerd/api/queue.c++` (workerd Queues bindings): the content-type
codec, the batch-send encoder, the ack/retry ledger, the event
coordinator's resolution race, and the RPC result marshaling.

The C++ code is shallowly embedded: each C++ function that the claims
touch is translated into an executable Lean definition (stateful code
becomes explicit state passing; `kj::Maybe` becomes `Option`;
JSG_REQUIRE failures become `Except.error`).  Host primitives that live
outside this file's source (jsg/v8 serialization, kj string rendering)
are modelled from the specification and marked as such in their doc
comments.
-/

namespace Workerd

/-! ## Ack/retry ledger (`QueueEventResult`)

`QueueEventResult` is the per-batch-delivery ledger mutated by
`QueueMessage::ack`, `QueueMessage::retry`, `QueueEvent::ackAll`,
`QueueEvent::retryAll`.  `kj::HashMap<kj::String, RetryOptions>` is
embedded as an association list (insertion ordered, keys unique by
construction of the operations) and `kj::HashSet<kj::String>` as an
insertion-ordered duplicate-free list.  Each operation returns the new
ledger state paired with a Bool that records whether the operation
logged a warning via `IoContext::current().logWarning` on that call. -/

/-- A `retries` map entry: the per-message retry options recorded for one
message id (`entry.value.delaySeconds` in the C++). -/
structure RetryEntry where
  delaySeconds : Option Int := none
deriving DecidableEq, Repr

/-- The whole-batch retry request: `result->retryBatch` in the C++. -/
structure RetryBatchRequest where
  retry : Bool := false
  delaySeconds : Option Int := none
deriving DecidableEq, Repr

/-- The ack/retry ledger for one batch delivery (`QueueEventResult`). -/
structure QueueEventResult where
  ackAll : Bool := false
  retryBatch : RetryBatchRequest := {}
  explicitAcks : List String := []
  retries : List (String × RetryEntry) := []
deriving DecidableEq, Repr

/-- The fresh (all-empty, all-false) ledger a batch delivery starts with. -/
def freshResult : QueueEventResult := {}

/-- The optional per-call retry options (`QueueRetryOptions`). -/
structure QueueRetryOptions where
  delaySeconds : Option Int := none
deriving DecidableEq, Repr

/-- `kj::HashMap::upsert(key, value)` on the association-list embedding:
replace the value stored under `id` if present (keeping its position),
otherwise append a fresh entry. -/
def upsertEntry (l : List (String × RetryEntry)) (id : String) (v : RetryEntry) :
    List (String × RetryEntry) :=
  match l with
  | [] => [(id, v)]
  | (k, w) :: rest => if k = id then (k, v) :: rest else (k, w) :: upsertEntry rest id v

/-- `kj::HashSet::findOrCreate(id, ...)`: idempotent insert. -/
def findOrCreate (l : List String) (id : String) : List String :=
  if l.contains id then l else l ++ [id]

/-- The `retries` entry written by one `retry` call: the upsert first
resets the entry to default `RetryOptions{}`, then stores the supplied
delay if any (`KJ_IF_SOME(opts, options) KJ_IF_SOME(secs, ...)`). -/
def retryEntryOf (options : Option QueueRetryOptions) : RetryEntry :=
  match options with
  | some opts =>
    match opts.delaySeconds with
    | some secs => { delaySeconds := some secs }
    | none => {}
  | none => {}

/-- `QueueMessage::retry` (queue.c++ lines 364-387).  Warns and no-ops if
`ackAll` is set or `id` is already in `explicitAcks`; otherwise upserts
`retries[id]` with a fresh entry whose `delaySeconds` is set exactly when
the call supplied one. -/
def QueueMessage.retry (result : QueueEventResult) (id : String)
    (options : Option QueueRetryOptions) : QueueEventResult × Bool :=
  if result.ackAll then
    (result, true)
  else if result.explicitAcks.contains id then
    (result, true)
  else
    ({ result with retries := upsertEntry result.retries id (retryEntryOf options) },
      false)

/-- `QueueMessage::ack` (queue.c++ lines 389-410).  Silently no-ops if
`ackAll` is set; warns and no-ops if `retryBatch.retry` is set or `id`
is already in `retries`; otherwise inserts `id` into `explicitAcks`
via `findOrCreate`. -/
def QueueMessage.ack (result : QueueEventResult) (id : String) :
    QueueEventResult × Bool :=
  if result.ackAll then
    (result, false)
  else if result.retryBatch.retry then
    (result, true)
  else if (List.lookup id result.retries).isSome then
    (result, true)
  else
    ({ result with explicitAcks := findOrCreate result.explicitAcks id }, false)

/-- `QueueEvent::retryAll` (queue.c++ lines 438-452).  Warns and no-ops if
`ackAll` is set; otherwise sets `retryBatch.retry := true` and overwrites
`retryBatch.delaySeconds` only when the call supplied a delay. -/
def QueueEvent.retryAll (result : QueueEventResult)
    (options : Option QueueRetryOptions) : QueueEventResult × Bool :=
  if result.ackAll then
    (result, true)
  else
    let ds : Option Int :=
      match options with
      | some opts =>
        match opts.delaySeconds with
        | some secs => some secs
        | none => result.retryBatch.delaySeconds
      | none => result.retryBatch.delaySeconds
    ({ result with retryBatch := { retry := true, delaySeconds := ds } }, false)

/-- `QueueEvent::ackAll` (queue.c++ lines 454-462).  Warns and no-ops if
`retryBatch.retry` is set; otherwise sets `ackAll := true`. -/
def QueueEvent.ackAll (result : QueueEventResult) : QueueEventResult × Bool :=
  if result.retryBatch.retry then
    (result, true)
  else
    ({ result with ackAll := true }, false)

/-- One user-handler call against the ledger. -/
inductive LedgerOp where
  | ack (id : String)
  | retry (id : String) (options : Option QueueRetryOptions)
  | ackAll
  | retryAll (options : Option QueueRetryOptions)
deriving DecidableEq, Repr

/-- Apply one ledger operation, discarding the warning flag. -/
def applyOp (s : QueueEventResult) (op : LedgerOp) : QueueEventResult :=
  match op with
  | .ack id => (QueueMessage.ack s id).1
  | .retry id opts => (QueueMessage.retry s id opts).1
  | .ackAll => (QueueEvent.ackAll s).1
  | .retryAll opts => (QueueEvent.retryAll s opts).1

/-- Run a sequence of handler calls from the fresh ledger. -/
def runOps (ops : List LedgerOp) : QueueEventResult :=
  ops.foldl applyOp freshResult

/-! ### Association-list and contains lemmas -/

theorem lookup_upsertEntry_self (l : List (String × RetryEntry)) (id : String)
    (v : RetryEntry) : List.lookup id (upsertEntry l id v) = some v := by
  induction l with
  | nil => simp [upsertEntry, List.lookup]
  | cons hd tl ih =>
    obtain ⟨k, w⟩ := hd
    by_cases h : k = id
    · subst h
      simp [upsertEntry, List.lookup]
    · simp only [upsertEntry, if_neg h, List.lookup]
      have : (id == k) = false := by
        simp [beq_iff_eq]
        exact fun hh => h hh.symm
      simp [this, ih]

theorem lookup_upsertEntry_other (l : List (String × RetryEntry)) (id id' : String)
    (v : RetryEntry) (h : id' ≠ id) :
    List.lookup id' (upsertEntry l id v) = List.lookup id' l := by
  induction l with
  | nil =>
    have hb : (id' == id) = false := by simp [beq_iff_eq, h]
    simp [upsertEntry, List.lookup, hb]
  | cons hd tl ih =>
    obtain ⟨k, w⟩ := hd
    by_cases hk : k = id
    · subst hk
      have hb : (id' == k) = false := by simp [beq_iff_eq, h]
      simp [upsertEntry, List.lookup, hb]
    · simp only [upsertEntry, if_neg hk, List.lookup]
      by_cases hk' : id' = k
      · subst hk'
        simp
      · have hb : (id' == k) = false := by simp [beq_iff_eq, hk']
        simp [hb, ih]

theorem contains_append_singleton (l : List String) (a b : String) :
    (l ++ [b]).contains a = (l.contains a || a == b) := by
  induction l with
  | nil =>
    by_cases h : a = b <;> simp [List.contains, h]
  | cons hd tl ih =>
    by_cases h : a = hd
    · subst h
      simp
    · simp only [List.cons_append, List.contains_cons]
      rw [ih]
      cases hab : (a == hd) <;> simp_all

theorem contains_findOrCreate_self (l : List String) (id : String) :
    (findOrCreate l id).contains id = true := by
  unfold findOrCreate
  by_cases h : l.contains id = true
  · rw [if_pos h]
    exact h
  · rw [if_neg h, contains_append_singleton]
    simp

theorem contains_findOrCreate (l : List String) (id a : String) :
    (findOrCreate l id).contains a = true →
    l.contains a = true ∨ a = id := by
  unfold findOrCreate
  by_cases h : l.contains id = true
  · rw [if_pos h]
    exact fun hh => Or.inl hh
  · rw [if_neg h, contains_append_singleton]
    intro hh
    rcases Bool.or_eq_true_iff.mp hh with h1 | h2
    · exact Or.inl h1
    · exact Or.inr (by simpa [beq_iff_eq] using h2)

/-! ### The ledger invariants (claims C1, C2, C6) -/

/-- The state invariant maintained by the four ledger operations: no
message id is in both `explicitAcks` and `retries`, and the two
whole-batch flags are never both set. -/
def LedgerInv (s : QueueEventResult) : Prop :=
  (∀ id, s.explicitAcks.contains id = true → List.lookup id s.retries = none) ∧
  ¬(s.ackAll = true ∧ s.retryBatch.retry = true)

theorem ledgerInv_applyOp (s : QueueEventResult) (op : LedgerOp)
    (h : LedgerInv s) : LedgerInv (applyOp s op) := by
  obtain ⟨hdisj, hflags⟩ := h
  cases op with
  | ack id =>
    simp only [applyOp, QueueMessage.ack]
    by_cases h1 : s.ackAll = true
    · rw [if_pos h1]; exact ⟨hdisj, hflags⟩
    · rw [if_neg h1]
      by_cases h2 : s.retryBatch.retry = true
      · rw [if_pos h2]; exact ⟨hdisj, hflags⟩
      · rw [if_neg h2]
        by_cases h3 : (List.lookup id s.retries).isSome = true
        · rw [if_pos h3]; exact ⟨hdisj, hflags⟩
        · rw [if_neg h3]
          refine ⟨?_, hflags⟩
          intro id' hmem
          rcases contains_findOrCreate s.explicitAcks id id' hmem with hold | heq
          · exact hdisj id' hold
          · subst heq
            exact Option.not_isSome_iff_eq_none.mp h3
  | retry id opts =>
    simp only [applyOp, QueueMessage.retry]
    by_cases h1 : s.ackAll = true
    · rw [if_pos h1]; exact ⟨hdisj, hflags⟩
    · rw [if_neg h1]
      by_cases h2 : s.explicitAcks.contains id = true
      · rw [if_pos h2]; exact ⟨hdisj, hflags⟩
      · rw [if_neg h2]
        refine ⟨?_, hflags⟩
        intro id' hmem
        have hne : id' ≠ id := by
          intro hfalse
          subst hfalse
          exact h2 hmem
        rw [lookup_upsertEntry_other _ _ _ _ hne]
        exact hdisj id' hmem
  | ackAll =>
    simp only [applyOp, QueueEvent.ackAll]
    by_cases h1 : s.retryBatch.retry = true
    · rw [if_pos h1]; exact ⟨hdisj, hflags⟩
    · rw [if_neg h1]
      refine ⟨hdisj, ?_⟩
      intro ⟨_, hr⟩
      exact h1 hr
  | retryAll opts =>
    simp only [applyOp, QueueEvent.retryAll]
    by_cases h1 : s.ackAll = true
    · rw [if_pos h1]; exact ⟨hdisj, hflags⟩
    · rw [if_neg h1]
      refine ⟨hdisj, ?_⟩
      intro ⟨ha, _⟩
      exact h1 ha

theorem ledgerInv_foldl (ops : List LedgerOp) (s : QueueEventResult)
    (h : LedgerInv s) : LedgerInv (ops.foldl applyOp s) := by
  induction ops generalizing s with
  | nil => exact h
  | cons op rest ih => exact ih _ (ledgerInv_applyOp s op h)

theorem ledgerInv_runOps (ops : List LedgerOp) : LedgerInv (runOps ops) := by
  apply ledgerInv_foldl
  constructor
  · intro id h
    cases h
  · intro ⟨h, _⟩
    cases h

/-- Claim C1, counterexample.  The claim states that once either
whole-batch flag is set, every per-message `ack(id)`/`retry(id)` leaves
the ledger unchanged and logs a warning.  Both halves fail on the code:
after `retryAll()` (so `retryBatch.retry = true`), `retry("m1")` still
mutates the ledger (it upserts `retries["m1"]`, since
`QueueMessage::retry` never consults `retryBatch.retry`); and after
`ackAll()`, `ack("m1")` leaves the ledger unchanged but returns without
logging any warning. -/
theorem queueMessage_batch_flag_claim_counterexample :
    ((QueueMessage.retry (runOps [.retryAll none]) "m1" none).1 ≠
        runOps [.retryAll none] ∧
      (QueueMessage.retry (runOps [.retryAll none]) "m1" none).2 = false) ∧
    (QueueMessage.ack (runOps [.ackAll]) "m1" =
      (runOps [.ackAll], false)) := by
  decide

/-- Claim C1, amended: once `ackAll` is set, `ack(id)` is an idle no-op
without a warning and `retry(id, delay?)` is an idle no-op with a
warning; once `retryBatch.retry` is set (with `ackAll` unset), `ack(id)`
is an idle no-op with a warning, while `retry(id, delay?)` is not
stopped by the batch flag (it is an idle no-op with a warning only when
`id` is already in `explicitAcks`); no per-message call ever raises an
error (the operations are total). -/
theorem queueMessage_batch_flag_amended (s : QueueEventResult) (id : String)
    (opts : Option QueueRetryOptions) :
    (s.ackAll = true →
      QueueMessage.ack s id = (s, false) ∧
      QueueMessage.retry s id opts = (s, true)) ∧
    (s.ackAll = false → s.retryBatch.retry = true →
      QueueMessage.ack s id = (s, true) ∧
      (s.explicitAcks.contains id = true →
        QueueMessage.retry s id opts = (s, true))) := by
  constructor
  · intro h
    constructor
    · simp [QueueMessage.ack, h]
    · simp [QueueMessage.retry, h]
  · intro h1 h2
    constructor
    · simp [QueueMessage.ack, h1, h2]
    · intro h3
      have h3' : id ∈ s.explicitAcks := by simpa using h3
      simp [QueueMessage.retry, h1, h3']

theorem queueMessage_batch_flag_amended_witness :
    (QueueMessage.ack { ackAll := true } "m1" = ({ ackAll := true }, false) ∧
      QueueMessage.retry { ackAll := true } "m1" none =
        ({ ackAll := true }, true)) ∧
    (QueueMessage.ack { retryBatch := { retry := true } } "m1" =
      ({ retryBatch := { retry := true } }, true)) := by
  refine ⟨(queueMessage_batch_flag_amended { ackAll := true } "m1" none).1 rfl, ?_⟩
  exact ((queueMessage_batch_flag_amended { retryBatch := { retry := true } }
    "m1" none).2 rfl rfl).1

/-- Claim C2: in every ledger state reachable from the fresh state, no
message id is in both `explicitAcks` and `retries`, and `ackAll` and
`retryBatch.retry` are never both true; `ackAll()` is a warned no-op
when `retryBatch.retry` is set and `retryAll()` is a warned no-op when
`ackAll` is set; and `ack("m1")` followed by `retry("m1")` leaves the id
only in `explicitAcks` (first call wins). -/
theorem queueEventResult_exclusivity :
    (∀ ops : List LedgerOp,
      (∀ id, (runOps ops).explicitAcks.contains id = true →
        List.lookup id (runOps ops).retries = none) ∧
      ¬((runOps ops).ackAll = true ∧ (runOps ops).retryBatch.retry = true)) ∧
    (∀ s : QueueEventResult, s.retryBatch.retry = true →
      QueueEvent.ackAll s = (s, true)) ∧
    (∀ (s : QueueEventResult) (opts : Option QueueRetryOptions),
      s.ackAll = true → QueueEvent.retryAll s opts = (s, true)) ∧
    (∀ (s : QueueEventResult) (id : String) (opts : Option QueueRetryOptions),
      s.ackAll = false → s.retryBatch.retry = false →
      List.lookup id s.retries = none →
      ((QueueMessage.retry (QueueMessage.ack s id).1 id opts).1.explicitAcks.contains
          id = true ∧
        List.lookup id
          (QueueMessage.retry (QueueMessage.ack s id).1 id opts).1.retries = none)) := by
  refine ⟨fun ops => ledgerInv_runOps ops, ?_, ?_, ?_⟩
  · intro s h
    simp [QueueEvent.ackAll, h]
  · intro s opts h
    simp [QueueEvent.retryAll, h]
  · intro s id opts h1 h2 h3
    have hsome : (List.lookup id s.retries).isSome = false := by
      rw [h3]; rfl
    have hack : QueueMessage.ack s id =
        ({ s with explicitAcks := findOrCreate s.explicitAcks id }, false) := by
      simp [QueueMessage.ack, h1, h2, hsome]
    rw [hack]
    have hcontains : (findOrCreate s.explicitAcks id).contains id = true :=
      contains_findOrCreate_self s.explicitAcks id
    have hmem : id ∈ findOrCreate s.explicitAcks id := by simpa using hcontains
    have hretry : QueueMessage.retry
        { s with explicitAcks := findOrCreate s.explicitAcks id } id opts =
        ({ s with explicitAcks := findOrCreate s.explicitAcks id }, true) := by
      simp [QueueMessage.retry, h1, hmem]
    rw [hretry]
    exact ⟨hcontains, h3⟩

theorem queueEventResult_exclusivity_witness :
    (List.lookup "m1"
      (runOps [.ack "m1", .retry "m1" (some { delaySeconds := some 5 })]).retries
        = none) ∧
    QueueEvent.ackAll { retryBatch := { retry := true } } =
      ({ retryBatch := { retry := true } }, true) ∧
    QueueEvent.retryAll { ackAll := true } none = ({ ackAll := true }, true) := by
  obtain ⟨h1, h2, h3, _⟩ := queueEventResult_exclusivity
  refine ⟨?_, h2 _ rfl, h3 _ none rfl⟩
  exact (h1 [.ack "m1", .retry "m1" (some { delaySeconds := some 5 })]).1 "m1"
    (by decide)

/-- Claim C6: on a message id where neither `ackAll` nor a prior
`ack(id)` applies, a second `retry(id, delay?)` overwrites the stored
delay: after the second call, `retries[id].delaySeconds` is exactly the
delay argument (or absence thereof) of the most recent call (the upsert
first resets the entry to the default options, then stores the new delay
if one was supplied). -/
theorem queueMessage_retry_overwrites_delay (s : QueueEventResult) (id : String)
    (opts1 opts2 : Option QueueRetryOptions)
    (h1 : s.ackAll = false) (h2 : s.explicitAcks.contains id = false) :
    List.lookup id
        (QueueMessage.retry (QueueMessage.retry s id opts1).1 id opts2).1.retries =
      some { delaySeconds := opts2.bind (fun o => o.delaySeconds) } := by
  have hmem : id ∉ s.explicitAcks := by simpa using h2
  have step : ∀ (t : QueueEventResult) (o : Option QueueRetryOptions),
      t.ackAll = false → id ∉ t.explicitAcks →
      (QueueMessage.retry t id o).1.ackAll = false ∧
      id ∉ (QueueMessage.retry t id o).1.explicitAcks ∧
      (QueueMessage.retry t id o).1.retries =
        upsertEntry t.retries id (retryEntryOf o) := by
    intro t o ht hm
    simp [QueueMessage.retry, ht, hm]
  obtain ⟨ha1, hm1, hr1⟩ := step s opts1 h1 hmem
  obtain ⟨_, _, hr2⟩ := step (QueueMessage.retry s id opts1).1 opts2 ha1 hm1
  rw [hr2, lookup_upsertEntry_self]
  congr 1
  cases opts2 with
  | none => rfl
  | some o =>
    cases h : o.delaySeconds with
    | none => simp [retryEntryOf, Option.bind, h]
    | some d => simp [retryEntryOf, Option.bind, h]

theorem queueMessage_retry_overwrites_delay_witness :
    List.lookup "m1"
        (QueueMessage.retry
          (QueueMessage.retry freshResult "m1" (some { delaySeconds := some 10 })).1
          "m1" (some { delaySeconds := some 30 })).1.retries =
      some { delaySeconds := some 30 } := by
  exact queueMessage_retry_overwrites_delay freshResult "m1"
    (some { delaySeconds := some 10 }) (some { delaySeconds := some 30 }) rfl rfl

/-! ## Decimal rendering (`kj::str` on integers) -/

/-- One decimal digit character. -/
def digitChar (n : Nat) : Char :=
  match n with
  | 0 => '0' | 1 => '1' | 2 => '2' | 3 => '3' | 4 => '4'
  | 5 => '5' | 6 => '6' | 7 => '7' | 8 => '8' | _ => '9'

/-- Decimal rendering of a natural number: recursion structured on a
fuel argument so the function reduces by iota (the fallback emits one
digit and is reached only when the fuel is exhausted, which never
happens for the fuel `natDecChars` passes). -/
def natDecCharsAux (fuel n : Nat) : List Char :=
  match fuel with
  | 0 => [digitChar n]
  | fuel + 1 =>
    if n < 10 then [digitChar n]
    else natDecCharsAux fuel (n / 10) ++ [digitChar (n % 10)]

/-- Decimal rendering of a natural number, as `kj::str` produces it. -/
def natDecChars (n : Nat) : List Char := natDecCharsAux n n

/-- Decimal rendering of a (machine) integer, as `kj::str` produces it. -/
def intDecChars (i : Int) : List Char :=
  if i < 0 then '-' :: natDecChars i.natAbs else natDecChars i.toNat

/-- `kj::str` of a natural number, as a `String`. -/
def kjStrNat (n : Nat) : String := String.mk (natDecChars n)

/-- `kj::str` of an integer, as a `String`. -/
def kjStrInt (i : Int) : String := String.mk (intDecChars i)

theorem natDecCharsAux_length (fuel : Nat) : ∀ (k n : Nat), n < 10 ^ k → 1 ≤ k →
    (natDecCharsAux fuel n).length ≤ k := by
  induction fuel with
  | zero =>
    intro k n _ hk
    simpa [natDecCharsAux] using hk
  | succ fuel ih =>
    intro k n hn hk
    by_cases h : n < 10
    · rw [natDecCharsAux, if_pos h]
      simpa using hk
    · rw [natDecCharsAux, if_neg h]
      obtain ⟨k, rfl⟩ : ∃ j, k = j + 1 := ⟨k - 1, by omega⟩
      have hk2 : 1 ≤ k := by
        by_contra hc
        have hz : k = 0 := by omega
        subst hz
        simp at hn
        omega
      have hdiv : n / 10 < 10 ^ k := by
        apply Nat.div_lt_of_lt_mul
        rw [pow_succ] at hn
        omega
      have := ih k (n / 10) hdiv hk2
      simp only [List.length_append, List.length_cons, List.length_nil]
      omega

theorem natDecChars_length (k : Nat) : ∀ n : Nat, n < 10 ^ k → 1 ≤ k →
    (natDecChars n).length ≤ k := by
  intro n hn hk
  exact natDecCharsAux_length n k n hn hk

theorem digitChar_not_brace (n : Nat) :
    digitChar n ≠ '\x7b' ∧ digitChar n ≠ '\x7d' := by
  unfold digitChar
  split <;> exact ⟨by decide, by decide⟩

theorem natDecCharsAux_not_brace (fuel : Nat) : ∀ n : Nat,
    ∀ c ∈ natDecCharsAux fuel n, c ≠ '\x7b' ∧ c ≠ '\x7d' := by
  induction fuel with
  | zero =>
    intro n c hc
    simp [natDecCharsAux] at hc
    subst hc
    exact digitChar_not_brace n
  | succ fuel ih =>
    intro n c hc
    by_cases h : n < 10
    · rw [natDecCharsAux, if_pos h] at hc
      simp at hc
      subst hc
      exact digitChar_not_brace n
    · rw [natDecCharsAux, if_neg h] at hc
      rcases List.mem_append.mp hc with h1 | h2
      · exact ih (n / 10) c h1
      · simp at h2
        subst h2
        exact digitChar_not_brace (n % 10)

theorem natDecChars_not_brace (n : Nat) :
    ∀ c ∈ natDecChars n, c ≠ '\x7b' ∧ c ≠ '\x7d' :=
  natDecCharsAux_not_brace n n

theorem intDecChars_not_brace (i : Int) :
    ∀ c ∈ intDecChars i, c ≠ '\x7b' ∧ c ≠ '\x7d' := by
  unfold intDecChars
  split
  · intro c hc
    rcases List.mem_cons.mp hc with h1 | h2
    · subst h1
      exact ⟨by decide, by decide⟩
    · exact natDecChars_not_brace _ c h2
  · exact natDecChars_not_brace _

theorem intDecChars_length (i : Int) (h1 : -(2 ^ 31) ≤ i) (h2 : i < 2 ^ 31) :
    (intDecChars i).length ≤ 11 := by
  unfold intDecChars
  split
  · rename_i hneg
    have habs : i.natAbs < 10 ^ 10 := by
      have : i.natAbs ≤ 2 ^ 31 := by omega
      omega
    have := natDecChars_length 10 i.natAbs habs (by omega)
    simp only [List.length_cons]
    omega
  · rename_i hpos
    have htn : i.toNat < 10 ^ 10 := by omega
    have := natDecChars_length 10 i.toNat htn (by omega)
    omega

/-! ## Base64 encoding (`kj::encodeBase64`, no line breaks) -/

/-- The base64 alphabet. -/
def base64Alphabet : List Char :=
  "ABCDEFGHIJKLMNOPQRSTUVWXYZabcdefghijklmnopqrstuvwxyz0123456789+/".toList

theorem base64Alphabet_length : base64Alphabet.length = 64 := by decide

/-- The base64 digit for a 6-bit group. -/
def base64Digit (n : Nat) : Char :=
  base64Alphabet.get ⟨n % 64, by rw [base64Alphabet_length]; exact Nat.mod_lt n (by omega)⟩

/-- `kj::encodeBase64` (standard base64 with `=` padding and no line
breaks), on bytes taken three at a time. -/
def encodeBase64 : List Nat → List Char
  | [] => []
  | [a] => [base64Digit (a / 4), base64Digit (a % 4 * 16), '=', '=']
  | [a, b] => [base64Digit (a / 4), base64Digit (a % 4 * 16 + b / 16),
      base64Digit (b % 16 * 4), '=']
  | a :: b :: c :: rest =>
      base64Digit (a / 4) :: base64Digit (a % 4 * 16 + b / 16) ::
      base64Digit (b % 16 * 4 + c / 64) :: base64Digit (c % 64) ::
      encodeBase64 rest

theorem encodeBase64_length : ∀ l : List Nat,
    (encodeBase64 l).length = (l.length + 2) / 3 * 4 := by
  intro l
  induction l using encodeBase64.induct with
  | case1 => rfl
  | case2 a => simp [encodeBase64]
  | case3 a b => simp [encodeBase64]
  | case4 a b c rest ih =>
    simp only [encodeBase64, List.length_cons, ih]
    omega

theorem base64Digit_not_brace (n : Nat) :
    base64Digit n ≠ '\x7b' ∧ base64Digit n ≠ '\x7d' := by
  have hmem : base64Digit n ∈ base64Alphabet := List.get_mem _ _ _
  have : ∀ c ∈ base64Alphabet, c ≠ '\x7b' ∧ c ≠ '\x7d' := by decide
  exact this _ hmem

theorem encodeBase64_not_brace : ∀ (l : List Nat), ∀ c ∈ encodeBase64 l,
    c ≠ '\x7b' ∧ c ≠ '\x7d' := by
  intro l
  induction l using encodeBase64.induct with
  | case1 => intro c hc; cases hc
  | case2 a =>
    intro c hc
    simp only [encodeBase64, List.mem_cons, List.not_mem_nil, or_false] at hc
    rcases hc with h | h | h | h <;> subst h
    · exact base64Digit_not_brace _
    · exact base64Digit_not_brace _
    · exact ⟨by decide, by decide⟩
    · exact ⟨by decide, by decide⟩
  | case3 a b =>
    intro c hc
    simp only [encodeBase64, List.mem_cons, List.not_mem_nil, or_false] at hc
    rcases hc with h | h | h | h <;> subst h
    · exact base64Digit_not_brace _
    · exact base64Digit_not_brace _
    · exact base64Digit_not_brace _
    · exact ⟨by decide, by decide⟩
  | case4 a b c rest ih =>
    intro ch hch
    simp only [encodeBase64, List.mem_cons] at hch
    rcases hch with h | h | h | h | h
    · subst h; exact base64Digit_not_brace _
    · subst h; exact base64Digit_not_brace _
    · subst h; exact base64Digit_not_brace _
    · subst h; exact base64Digit_not_brace _
    · exact ih ch h

/-! ## UTF-8 (the byte encoding of `kj::String` text) -/

/-- The UTF-8 bytes of one Unicode scalar value. -/
def utf8CharBytes (n : Nat) : List Nat :=
  if n < 0x80 then [n]
  else if n < 0x800 then [0xC0 + n / 64, 0x80 + n % 64]
  else if n < 0x10000 then [0xE0 + n / 4096, 0x80 + n / 64 % 64, 0x80 + n % 64]
  else [0xF0 + n / 262144, 0x80 + n / 4096 % 64, 0x80 + n / 64 % 64, 0x80 + n % 64]

/-- UTF-8 encoding of a character sequence. -/
def utf8EncodeChars : List Char → List Nat
  | [] => []
  | c :: cs => utf8CharBytes c.toNat ++ utf8EncodeChars cs

/-- The UTF-8 bytes of a string (the contents of a `kj::String` holding
this text). -/
def utf8Encode (s : String) : List Nat := utf8EncodeChars s.data

/-- Decode one UTF-8-encoded Unicode scalar value from the front of a
byte list, returning it and the remaining bytes; `none` on malformed
input. -/
def utf8DecodeOne : List Nat → Option (Nat × List Nat)
  | [] => none
  | b :: rest =>
    if b < 0x80 then some (b, rest)
    else if b < 0xC0 then none
    else if b < 0xE0 then
      match rest with
      | b2 :: rest2 =>
        if 0x80 ≤ b2 ∧ b2 < 0xC0 then some ((b - 0xC0) * 64 + (b2 - 0x80), rest2)
        else none
      | [] => none
    else if b < 0xF0 then
      match rest with
      | b2 :: b3 :: rest3 =>
        if (0x80 ≤ b2 ∧ b2 < 0xC0) ∧ (0x80 ≤ b3 ∧ b3 < 0xC0) then
          some ((b - 0xE0) * 4096 + (b2 - 0x80) * 64 + (b3 - 0x80), rest3)
        else none
      | _ => none
    else
      match rest with
      | b2 :: b3 :: b4 :: rest4 =>
        if (0x80 ≤ b2 ∧ b2 < 0xC0) ∧ (0x80 ≤ b3 ∧ b3 < 0xC0) ∧
            (0x80 ≤ b4 ∧ b4 < 0xC0) then
          some ((b - 0xF0) * 262144 + (b2 - 0x80) * 4096 + (b3 - 0x80) * 64 +
            (b4 - 0x80), rest4)
        else none
      | _ => none

/-- Decode a whole byte list to Unicode scalar values; the fuel bounds
the number of decoded characters (one byte of input always suffices for
one unit of fuel). -/
def utf8DecodeLoop : Nat → List Nat → Option (List Nat)
  | _, [] => some []
  | 0, _ :: _ => none
  | fuel + 1, b :: rest =>
    match utf8DecodeOne (b :: rest) with
    | none => none
    | some (cp, rest2) => (utf8DecodeLoop fuel rest2).map (cp :: ·)

/-- UTF-8 decoding of a byte list to Unicode scalar values. -/
def utf8DecodeCps (l : List Nat) : Option (List Nat) := utf8DecodeLoop l.length l

/-- UTF-8 decoding to a string. -/
def utf8DecodeStr (l : List Nat) : Option String :=
  (utf8DecodeCps l).map (fun cps => String.mk (cps.map Char.ofNat))

theorem char_toNat_lt (c : Char) : c.toNat < 0x110000 := by
  have h := c.valid
  have he : c.toNat = c.val.toNat := rfl
  rw [he]
  rcases h with h | h <;> omega

theorem utf8DecodeOne_chunk (n : Nat) (h : n < 0x110000) (rest : List Nat) :
    utf8DecodeOne (utf8CharBytes n ++ rest) = some (n, rest) := by
  by_cases h1 : n < 0x80
  · rw [utf8CharBytes, if_pos h1]
    simp only [List.cons_append, List.nil_append]
    rw [utf8DecodeOne.eq_def]
    dsimp only
    rw [if_pos h1]
  · by_cases h2 : n < 0x800
    · rw [utf8CharBytes, if_neg h1, if_pos h2]
      simp only [List.cons_append, List.nil_append]
      have e1 : ¬(0xC0 + n / 64 < 0x80) := by omega
      have e2 : ¬(0xC0 + n / 64 < 0xC0) := by omega
      have e3 : 0xC0 + n / 64 < 0xE0 := by omega
      have e4 : 0x80 ≤ 0x80 + n % 64 ∧ 0x80 + n % 64 < 0xC0 := by omega
      rw [utf8DecodeOne]
      rw [if_neg e1, if_neg e2, if_pos e3, if_pos e4]
      have hv : (0xC0 + n / 64 - 0xC0) * 64 + (0x80 + n % 64 - 0x80) = n := by omega
      rw [hv]
    · by_cases h3 : n < 0x10000
      · rw [utf8CharBytes, if_neg h1, if_neg h2, if_pos h3]
        simp only [List.cons_append, List.nil_append]
        have e1 : ¬(0xE0 + n / 4096 < 0x80) := by omega
        have e2 : ¬(0xE0 + n / 4096 < 0xC0) := by omega
        have e3 : ¬(0xE0 + n / 4096 < 0xE0) := by omega
        have e4 : 0xE0 + n / 4096 < 0xF0 := by omega
        have e5 : (0x80 ≤ 0x80 + n / 64 % 64 ∧ 0x80 + n / 64 % 64 < 0xC0) ∧
            (0x80 ≤ 0x80 + n % 64 ∧ 0x80 + n % 64 < 0xC0) := by omega
        rw [utf8DecodeOne]
        dsimp only
        rw [if_neg e1, if_neg e2, if_neg e3, if_pos e4, if_pos e5]
        have hv : (0xE0 + n / 4096 - 0xE0) * 4096 + (0x80 + n / 64 % 64 - 0x80) * 64 +
            (0x80 + n % 64 - 0x80) = n := by omega
        rw [hv]
      · rw [utf8CharBytes, if_neg h1, if_neg h2, if_neg h3]
        simp only [List.cons_append, List.nil_append]
        have e1 : ¬(0xF0 + n / 262144 < 0x80) := by omega
        have e2 : ¬(0xF0 + n / 262144 < 0xC0) := by omega
        have e3 : ¬(0xF0 + n / 262144 < 0xE0) := by omega
        have e4 : ¬(0xF0 + n / 262144 < 0xF0) := by omega
        have e5 : (0x80 ≤ 0x80 + n / 4096 % 64 ∧ 0x80 + n / 4096 % 64 < 0xC0) ∧
            (0x80 ≤ 0x80 + n / 64 % 64 ∧ 0x80 + n / 64 % 64 < 0xC0) ∧
            (0x80 ≤ 0x80 + n % 64 ∧ 0x80 + n % 64 < 0xC0) := by omega
        rw [utf8DecodeOne]
        dsimp only
        rw [if_neg e1, if_neg e2, if_neg e3, if_neg e4, if_pos e5]
        have hv : (0xF0 + n / 262144 - 0xF0) * 262144 +
            (0x80 + n / 4096 % 64 - 0x80) * 4096 +
            (0x80 + n / 64 % 64 - 0x80) * 64 + (0x80 + n % 64 - 0x80) = n := by omega
        rw [hv]

theorem utf8DecodeLoop_step (fuel : Nat) (b : Nat) (rest : List Nat)
    (cp : Nat) (rest2 : List Nat) (h : utf8DecodeOne (b :: rest) = some (cp, rest2)) :
    utf8DecodeLoop (fuel + 1) (b :: rest) = (utf8DecodeLoop fuel rest2).map (cp :: ·) := by
  rw [utf8DecodeLoop, h]

theorem utf8CharBytes_length_pos (n : Nat) : 1 ≤ (utf8CharBytes n).length := by
  unfold utf8CharBytes
  split
  · simp
  · split
    · simp
    · split <;> simp

theorem utf8DecodeLoop_encodeChars (cs : List Char) : ∀ fuel : Nat,
    (utf8EncodeChars cs).length ≤ fuel →
    utf8DecodeLoop fuel (utf8EncodeChars cs) = some (cs.map Char.toNat) := by
  induction cs with
  | nil =>
    intro fuel _
    cases fuel <;> rfl
  | cons c cs ih =>
    intro fuel hfuel
    rw [utf8EncodeChars] at hfuel ⊢
    have hlen : 1 ≤ (utf8CharBytes c.toNat).length := utf8CharBytes_length_pos _
    have hone : utf8DecodeOne (utf8CharBytes c.toNat ++ utf8EncodeChars cs) =
        some (c.toNat, utf8EncodeChars cs) :=
      utf8DecodeOne_chunk c.toNat (char_toNat_lt c) _
    cases hchunk : utf8CharBytes c.toNat with
    | nil => rw [hchunk] at hlen; simp at hlen
    | cons b bs =>
      rw [hchunk] at hone
      rw [hchunk, List.length_append] at hfuel
      simp only [List.length_cons] at hfuel
      cases fuel with
      | zero => omega
      | succ f =>
        simp only [List.cons_append]
        rw [utf8DecodeLoop_step f b (bs ++ utf8EncodeChars cs) c.toNat
          (utf8EncodeChars cs) (by simpa using hone)]
        rw [ih f (by omega)]
        rfl

/-- Decoding the UTF-8 encoding of a character list recovers exactly the
characters' scalar values. -/
theorem utf8DecodeCps_encodeChars (cs : List Char) :
    utf8DecodeCps (utf8EncodeChars cs) = some (cs.map Char.toNat) :=
  utf8DecodeLoop_encodeChars cs (utf8EncodeChars cs).length (le_refl _)

/-- The UTF-8 round-trip on strings: decoding the encoding of any string
recovers the string. -/
theorem utf8DecodeStr_encode (s : String) : utf8DecodeStr (utf8Encode s) = some s := by
  unfold utf8DecodeStr utf8Encode
  rw [utf8DecodeCps_encodeChars]
  simp only [Option.map_some']
  congr 1
  rw [List.map_map]
  have hcomp : (Char.ofNat ∘ Char.toNat) = fun c => c := by
    funext c
    exact Char.ofNat_toNat c
  rw [hcomp, List.map_id']

/-! ## Content types and the codec (`validateContentType`, `serialize`,
`deserialize`) -/

/-- Modelled from the spec: the recognized content-type tag `"text"`
(`IncomingQueueMessage::ContentType::TEXT`, declared in queue.h which is
outside this file's source; the spec fixes the lower-case wire
spellings). -/
def ContentType.TEXT : String := "text"

/-- Modelled from the spec: the recognized content-type tag `"bytes"`. -/
def ContentType.BYTES : String := "bytes"

/-- Modelled from the spec: the recognized content-type tag `"json"`. -/
def ContentType.JSON : String := "json"

/-- Modelled from the spec: the recognized content-type tag `"v8"` (the
STRUCTURED tag is spelled `"v8"` in the source domain). -/
def ContentType.V8 : String := "v8"

/-- ASCII lower-casing of one character (`workerd::toLower` semantics on
ASCII tags). -/
def asciiLowerChar (c : Char) : Char :=
  if 'A' ≤ c ∧ c ≤ 'Z' then Char.ofNat (c.toNat + 32) else c

/-- ASCII lower-casing of a string. -/
def toLower (s : String) : String := String.mk (s.data.map asciiLowerChar)

/-- `validateContentType` (queue.c++ lines 29-42): case-insensitive match
against the four recognized tags, returning the canonical tag; a
`TypeError` otherwise. -/
def validateContentType (contentType : String) : Except String String :=
  let lowerCase := toLower contentType
  if lowerCase = ContentType.TEXT then .ok ContentType.TEXT
  else if lowerCase = ContentType.BYTES then .ok ContentType.BYTES
  else if lowerCase = ContentType.JSON then .ok ContentType.JSON
  else if lowerCase = ContentType.V8 then .ok ContentType.V8
  else .error ("Unsupported queue message content type: " ++ contentType)

/-- Modelled from the spec: the opaque JS message-body value owned by the
host execution environment, as a tagged value with the capabilities the
codec needs (isString / isArrayBufferView / JSON projection).  A
JSON-representable structured value is identified by its canonical JSON
text, since the host's own JSON projection is out of scope. -/
inductive JsValue where
  | undefined
  | str (s : String)
  | bytes (b : List Nat)
  | jsonVal (t : String)
deriving DecidableEq, Repr

/-- `JsValue::typeOf`, as used in codec error messages. -/
def JsValue.typeOf : JsValue → String
  | .undefined => "undefined"
  | .str _ => "string"
  | .bytes _ => "object"
  | .jsonVal _ => "object"

/-- Modelled from the spec: the host's JSON projection (`body.toJson`).
A modelled JSON-representable value carries its canonical JSON text;
values outside the modelled JSON-representable class are not given a
projection here. -/
def jsToJson : JsValue → Except String String
  | .jsonVal t => .ok t
  | v => .error ("could not serialize to JSON: " ++ v.typeOf)

/-- Modelled from the spec: the payload of the versioned
structured-clone-style binary format, an injective tag-length-value
encoding of the modelled value. -/
def v8EncodeValue : JsValue → List Nat
  | .undefined => [0]
  | .str s => 1 :: (utf8Encode s).length :: utf8Encode s
  | .bytes b => 2 :: b.length :: b
  | .jsonVal t => 3 :: (utf8Encode t).length :: utf8Encode t

/-- `serializeV8` (queue.c++ lines 52-66): serialize with the pinned
format version 15 and an explicit header, so newer encoders stay
readable by older consumers.  Modelled from the spec: the wire form is
the version header `[0xFF, 15]` followed by the value encoding. -/
def serializeV8 (body : JsValue) : List Nat := 0xFF :: 15 :: v8EncodeValue body

/-- Modelled from the spec: the inverse of `v8EncodeValue`. -/
def v8DecodeValue : List Nat → Option JsValue
  | 0 :: [] => some .undefined
  | 1 :: n :: rest => if rest.length = n then (utf8DecodeStr rest).map .str else none
  | 2 :: n :: rest => if rest.length = n then some (.bytes rest) else none
  | 3 :: n :: rest => if rest.length = n then (utf8DecodeStr rest).map .jsonVal else none
  | _ => none

/-- Modelled from the spec: the structured-clone deserializer
(`jsg::Deserializer(...).readValue`), accepting the version-15 header. -/
def deserializeV8 : List Nat → Option JsValue
  | 0xFF :: 15 :: rest => v8DecodeValue rest
  | _ => none

/-- Whether `serialize` may borrow a provided ArrayBuffer or must copy
it (queue.c++ lines 70-73). -/
inductive SerializeArrayBufferBehavior where
  | deepCopy
  | shallowReference
deriving DecidableEq, Repr

/-- `serialize` (queue.c++ lines 75-126): dispatch on the validated
content type.  TEXT requires a string and emits its UTF-8 bytes; BYTES
requires an ArrayBufferView and emits its bytes (the buffer behavior
only controls ownership, never the bytes); JSON emits the UTF-8 bytes of
the value's JSON projection; V8 uses the pinned structured-clone
format. -/
def serialize (body : JsValue) (contentType : String)
    (bufferBehavior : SerializeArrayBufferBehavior) : Except String (List Nat) :=
  if contentType = ContentType.TEXT then
    match body with
    | .str s => .ok (utf8Encode s)
    | v => .error ("Content Type \"text\" requires a value of type string, but received: "
        ++ v.typeOf)
  else if contentType = ContentType.BYTES then
    match body with
    | .bytes b => .ok b
    | v => .error
        ("Content Type \"bytes\" requires a value of type ArrayBufferView, but received: "
          ++ v.typeOf)
  else if contentType = ContentType.JSON then
    (jsToJson body).map utf8Encode
  else if contentType = ContentType.V8 then
    .ok (serializeV8 body)
  else .error ("Unsupported queue message content type: " ++ contentType)

/-- `deserialize` (queue.c++ lines 134-149): the tag defaults to `"v8"`
when absent; TEXT decodes the bytes as UTF-8 text (`js.str`), BYTES
returns the bytes, JSON parses the text back (`JsValue::fromJson`,
modelled on canonical text), V8 runs the structured-clone
deserializer. -/
def deserialize (body : List Nat) (contentType : Option String) :
    Except String JsValue :=
  let type := contentType.getD ContentType.V8
  if type = ContentType.TEXT then
    match utf8DecodeStr body with
    | some s => .ok (.str s)
    | none => .error "invalid text payload"
  else if type = ContentType.BYTES then
    .ok (.bytes body)
  else if type = ContentType.JSON then
    match utf8DecodeStr body with
    | some t => .ok (.jsonVal t)
    | none => .error "invalid json payload"
  else if type = ContentType.V8 then
    match deserializeV8 body with
    | some v => .ok v
    | none => .error "invalid v8 payload"
  else .error ("Unsupported queue message content type: " ++ type)

theorem deserializeV8_serializeV8 (v : JsValue) :
    deserializeV8 (serializeV8 v) = some v := by
  cases v with
  | undefined => rfl
  | str s =>
    show v8DecodeValue (1 :: (utf8Encode s).length :: utf8Encode s) = some (.str s)
    rw [v8DecodeValue, if_pos rfl, utf8DecodeStr_encode]
    rfl
  | bytes b =>
    show v8DecodeValue (2 :: b.length :: b) = some (.bytes b)
    rw [v8DecodeValue, if_pos rfl]
  | jsonVal t =>
    show v8DecodeValue (3 :: (utf8Encode t).length :: utf8Encode t) = some (.jsonVal t)
    rw [v8DecodeValue, if_pos rfl, utf8DecodeStr_encode]
    rfl

/-- Claim C7: for every content-type tag in \{TEXT, BYTES, JSON,
STRUCTURED\} and every representative value of the matching type
(a string for TEXT, an ArrayBufferView for BYTES, a JSON-representable
value for JSON, any structured value for V8), decoding the encoding
yields the value back, under either buffer-ownership policy. -/
theorem serialize_deserialize_roundtrip (beh : SerializeArrayBufferBehavior) :
    (∀ s : String, (serialize (.str s) ContentType.TEXT beh).bind
        (fun d => deserialize d (some ContentType.TEXT)) = .ok (.str s)) ∧
    (∀ b : List Nat, (serialize (.bytes b) ContentType.BYTES beh).bind
        (fun d => deserialize d (some ContentType.BYTES)) = .ok (.bytes b)) ∧
    (∀ t : String, (serialize (.jsonVal t) ContentType.JSON beh).bind
        (fun d => deserialize d (some ContentType.JSON)) = .ok (.jsonVal t)) ∧
    (∀ v : JsValue, (serialize v ContentType.V8 beh).bind
        (fun d => deserialize d (some ContentType.V8)) = .ok v) := by
  refine ⟨?_, ?_, ?_, ?_⟩
  · intro s
    show Except.bind (.ok (utf8Encode s)) (fun d => deserialize d (some ContentType.TEXT))
      = .ok (.str s)
    show deserialize (utf8Encode s) (some ContentType.TEXT) = .ok (.str s)
    unfold deserialize
    simp only [Option.getD_some]
    rw [if_pos trivial, utf8DecodeStr_encode]
  · intro b
    have hser : serialize (.bytes b) ContentType.BYTES beh = .ok b := by
      unfold serialize
      rw [if_neg (by decide), if_pos rfl]
    rw [hser]
    rfl
  · intro t
    have hser : serialize (.jsonVal t) ContentType.JSON beh = .ok (utf8Encode t) := by
      unfold serialize
      rw [if_neg (by decide), if_neg (by decide), if_pos rfl]
      rfl
    rw [hser]
    show deserialize (utf8Encode t) (some ContentType.JSON) = .ok (.jsonVal t)
    unfold deserialize
    simp only [Option.getD_some]
    rw [if_neg (by decide), if_neg (by decide), if_pos trivial, utf8DecodeStr_encode]
  · intro v
    have hser : serialize v ContentType.V8 beh = .ok (serializeV8 v) := by
      unfold serialize
      rw [if_neg (by decide), if_neg (by decide), if_neg (by decide), if_pos rfl]
    rw [hser]
    show deserialize (serializeV8 v) (some ContentType.V8) = .ok v
    unfold deserialize
    simp only [Option.getD_some]
    rw [if_neg (by decide), if_neg (by decide), if_neg (by decide), if_pos trivial,
      deserializeV8_serializeV8]

/-! ## Single-message send (`WorkerQueue::send`) -/

/-- Header name for the message format (queue.c++ line 24). -/
def HDR_MSG_FORMAT : String := "X-Msg-Fmt"

/-- Header name for the message delivery delay (queue.c++ line 27). -/
def HDR_MSG_DELAY : String := "X-Msg-Delay-Secs"

/-- `MimeType::OCTET_STREAM.toString()`. -/
def MimeType.OCTET_STREAM : String := "application/octet-stream"

/-- `MimeType::JSON.toString()`. -/
def MimeType.JSON : String := "application/json"

/-- The options of one `send` call. -/
structure SendOptions where
  contentType : Option String := none
  delaySeconds : Option Int := none
deriving DecidableEq, Repr

/-- The observable outgoing HTTP request of a send: URL, headers in the
order they are attached, and body bytes. -/
structure QueueSendRequest where
  url : String
  headers : List (String × String)
  body : List Nat
deriving DecidableEq, Repr

/-- `WorkerQueue::send` (queue.c++ lines 173-228), up to the network
write: rejects an undefined body; sets `Content-Type:
application/octet-stream`; when a content type is explicitly chosen,
validates it, attaches `X-Msg-Fmt` with the validated tag and serializes
with it (deep copy); attaches `X-Msg-Delay-Secs` when a delay is given;
with no explicit content type, either the `queuesJsonMessages` feature
flag selects JSON (also attaching `X-Msg-Fmt: json`) or the body is
v8-serialized with no format header. -/
def WorkerQueue.send (queuesJsonMessages : Bool) (body : JsValue)
    (options : Option SendOptions) : Except String QueueSendRequest :=
  if body = .undefined then .error "Message body cannot be undefined"
  else
    let headers0 : List (String × String) := [("Content-Type", MimeType.OCTET_STREAM)]
    let step1 : Except String (List (String × String) × Option String) :=
      match options with
      | some opts =>
        (match opts.contentType with
        | some t =>
          (validateContentType t).map (fun validated =>
            (headers0 ++ [(HDR_MSG_FORMAT, validated)], some validated))
        | none => .ok (headers0, none))
      | none => .ok (headers0, none)
    match step1 with
    | .error e => .error e
    | .ok (headers1, contentType) =>
      let headers2 : List (String × String) :=
        match options with
        | some opts =>
          (match opts.delaySeconds with
          | some secs => headers1 ++ [(HDR_MSG_DELAY, kjStrInt secs)]
          | none => headers1)
        | none => headers1
      match contentType with
      | some t =>
        (match serialize body t .deepCopy with
        | .error e => .error e
        | .ok d =>
          .ok { url := "https://fake-host/message", headers := headers2, body := d })
      | none =>
        if queuesJsonMessages then
          match serialize body ContentType.JSON .deepCopy with
          | .error e => .error e
          | .ok d =>
            .ok { url := "https://fake-host/message",
                  headers := headers2 ++ [(HDR_MSG_FORMAT, ContentType.JSON)],
                  body := d }
        else
          .ok { url := "https://fake-host/message", headers := headers2,
                body := serializeV8 body }

/-- Claim C9: a single send with an explicitly chosen content type that
validates to `"text"`, a delay `d`, and a string body carries the header
`X-Msg-Fmt` with the validated lower-cased tag `"text"` and the header
`X-Msg-Delay-Secs` with the decimal delay, and the request body is
exactly the UTF-8 bytes of the string; in particular for body
`"hello"` and delay `5` the delay header value is `"5"` and the body is
the UTF-8 bytes of `"hello"`. -/
theorem workerQueue_send_text_delay (flag : Bool) (ct : String) (d : Int) (s : String)
    (hct : validateContentType ct = .ok ContentType.TEXT) :
    WorkerQueue.send flag (.str s)
        (some { contentType := some ct, delaySeconds := some d }) =
      .ok { url := "https://fake-host/message",
            headers := [("Content-Type", MimeType.OCTET_STREAM),
              (HDR_MSG_FORMAT, "text"),
              (HDR_MSG_DELAY, kjStrInt d)],
            body := utf8Encode s } ∧
    kjStrInt 5 = "5" ∧
    utf8Encode "hello" = [104, 101, 108, 108, 111] := by
  refine ⟨?_, by decide, by decide⟩
  have hser : serialize (.str s) ContentType.TEXT .deepCopy = .ok (utf8Encode s) := by
    unfold serialize
    rw [if_pos rfl]
  unfold WorkerQueue.send
  rw [if_neg (by simp)]
  dsimp only
  rw [hct]
  dsimp only [Except.map]
  rw [hser]
  rfl

theorem workerQueue_send_text_delay_witness :
    WorkerQueue.send false (.str "hello")
        (some { contentType := some "TEXT", delaySeconds := some 5 }) =
      .ok { url := "https://fake-host/message",
            headers := [("Content-Type", MimeType.OCTET_STREAM),
              (HDR_MSG_FORMAT, "text"),
              (HDR_MSG_DELAY, kjStrInt 5)],
            body := utf8Encode "hello" } := by
  exact (workerQueue_send_text_delay false "TEXT" 5 "hello" rfl).1

/-! ## Batch send (`WorkerQueue::sendBatch`) -/

/-- One message of a `sendBatch` call (`MessageSendRequest`). -/
structure MessageSendRequest where
  body : JsValue
  contentType : Option String := none
  delaySeconds : Option Int := none
deriving DecidableEq, Repr

/-- The per-message serialization result (`SerializedWithOptions`): the
serialized payload bytes plus the options echoed onto the wire. -/
structure SerializedWithOptions where
  data : List Nat := []
  contentType : Option String := none
  delaySeconds : Option Int := none
deriving DecidableEq, Repr

/-- The per-message work of the `sendBatch` loop (queue.c++ lines
241-264): reject undefined bodies; with an explicit content type,
record the validated tag but serialize with the caller's raw tag
(shallow reference); else the `queuesJsonMessages` flag selects JSON;
else v8 with no content type recorded. -/
def serializeItem (queuesJsonMessages : Bool) (message : MessageSendRequest) :
    Except String SerializedWithOptions :=
  if message.body = .undefined then .error "Message body cannot be undefined"
  else
    match message.contentType with
    | some contentType =>
      (match validateContentType contentType with
      | .error e => .error e
      | .ok validated =>
        match serialize message.body contentType .shallowReference with
        | .error e => .error e
        | .ok d => .ok { data := d, contentType := some validated,
                         delaySeconds := message.delaySeconds })
    | none =>
      if queuesJsonMessages then
        match serialize message.body ContentType.JSON .shallowReference with
        | .error e => .error e
        | .ok d => .ok { data := d, contentType := some ContentType.JSON,
                         delaySeconds := message.delaySeconds }
      else
        .ok { data := serializeV8 message.body, contentType := none,
              delaySeconds := message.delaySeconds }

/-- The serialization loop of `sendBatch` (fail-fast, in order). -/
def serializeBatch (queuesJsonMessages : Bool) :
    List MessageSendRequest → Except String (List SerializedWithOptions)
  | [] => .ok []
  | m :: rest =>
    match serializeItem queuesJsonMessages m with
    | .error e => .error e
    | .ok item =>
      match serializeBatch queuesJsonMessages rest with
      | .error e => .error e
      | .ok items => .ok (item :: items)

/-- The optional `contentType` field fragment of one message object
(queue.c++ lines 281-285). -/
def ctPartChars (m : SerializedWithOptions) : List Char :=
  match m.contentType with
  | some contentType => ",\"contentType\":\"".toList ++ contentType.toList ++
      "\"".toList
  | none => []

/-- The optional `delaySecs` field fragment of one message object
(queue.c++ lines 287-290; note the space the source emits after the
colon). -/
def delayPartChars (m : SerializedWithOptions) : List Char :=
  match m.delaySeconds with
  | some delaySecs => ",\"delaySecs\": ".toList ++ intDecChars delaySecs
  | none => []

/-- The JSON object emitted for one serialized message in the batch body
(queue.c++ lines 273-296): fields in the order `body` (base64 of the
payload), `contentType` (only when present), `delaySecs` (only when
present); absent fields are omitted entirely. -/
def messageJsonChars (m : SerializedWithOptions) : List Char :=
  "\x7b\"body\":\"".toList ++ encodeBase64 m.data ++ "\"".toList ++
  ctPartChars m ++ delayPartChars m ++ "\x7d".toList

/-- The comma join of the loop (`if (i < messageCount - 1) add(',')`). -/
def joinComma : List (List Char) → List Char
  | [] => []
  | [x] => x
  | x :: xs => x ++ ',' :: joinComma xs

/-- The whole batch body as built by `bodyBuilder` (queue.c++ lines
271-298), without the trailing NUL that `kj::String` strips again. -/
def bodyBuilderChars (items : List SerializedWithOptions) : List Char :=
  "\x7b\"messages\":[".toList ++ joinComma (items.map messageJsonChars) ++
    "]\x7d".toList

/-- The buffer size estimate of queue.c++ line 270:
`(totalSize + 2) / 3 * 4 + messageCount * 64 + 32`. -/
def estimatedSize (items : List SerializedWithOptions) : Nat :=
  ((items.map (fun m => m.data.length)).sum + 2) / 3 * 4 + items.length * 64 + 32

/-- The options of one `sendBatch` call. -/
structure SendBatchOptions where
  delaySeconds : Option Int := none
deriving DecidableEq, Repr

/-- The observable outgoing batch request: URL, headers in attachment
order, body characters, and the aggregate metadata the loop computed. -/
structure QueueBatchRequest where
  url : String
  headers : List (String × String)
  body : List Char
  messageCount : Nat
  totalSize : Nat
  largestMessage : Nat
deriving DecidableEq, Repr

/-- The optional whole-batch `X-Msg-Delay-Secs` header of `sendBatch`
(queue.c++ lines 314-318). -/
def batchDelayHeader (options : Option SendBatchOptions) : List (String × String) :=
  match options with
  | some opts =>
    (match opts.delaySeconds with
    | some secs => [(HDR_MSG_DELAY, kjStrInt secs)]
    | none => [])
  | none => []

/-- `WorkerQueue::sendBatch` (queue.c++ lines 230-340), up to the
network write: requires at least one message; serializes each message in
order; builds the JSON body; attaches `CF-Queue-Batch-Count`,
`CF-Queue-Batch-Bytes`, `CF-Queue-Largest-Msg` with the aggregate
metadata, `Content-Type: application/json`, and `X-Msg-Delay-Secs` when
a batch delay is given. -/
def WorkerQueue.sendBatch (queuesJsonMessages : Bool)
    (batch : List MessageSendRequest) (options : Option SendBatchOptions) :
    Except String QueueBatchRequest :=
  if batch.length > 0 then
    match serializeBatch queuesJsonMessages batch with
    | .error e => .error e
    | .ok serializedBodies =>
      let totalSize := (serializedBodies.map (fun m => m.data.length)).sum
      let largestMessage :=
        (serializedBodies.map (fun m => m.data.length)).foldl Nat.max 0
      .ok { url := "https://fake-host/batch",
            headers := [("CF-Queue-Batch-Count", kjStrNat batch.length),
              ("CF-Queue-Batch-Bytes", kjStrNat totalSize),
              ("CF-Queue-Largest-Msg", kjStrNat largestMessage),
              ("Content-Type", MimeType.JSON)] ++ batchDelayHeader options,
            body := bodyBuilderChars serializedBodies,
            messageCount := batch.length,
            totalSize := totalSize,
            largestMessage := largestMessage }
  else .error "sendBatch() requires at least one message"

theorem serializeBatch_length (flags : Bool) :
    ∀ (batch : List MessageSendRequest) (items : List SerializedWithOptions),
    serializeBatch flags batch = .ok items → items.length = batch.length := by
  intro batch
  induction batch with
  | nil =>
    intro items h
    simp [serializeBatch] at h
    subst h
    rfl
  | cons m rest ih =>
    intro items h
    rw [serializeBatch] at h
    cases h1 : serializeItem flags m with
    | error e => rw [h1] at h; cases h
    | ok item =>
      rw [h1] at h
      cases h2 : serializeBatch flags rest with
      | error e => rw [h2] at h; cases h
      | ok items2 =>
        rw [h2] at h
        cases h
        simp [ih items2 h2]

theorem foldl_max_init (l : List Nat) : ∀ a : Nat, a ≤ l.foldl Nat.max a := by
  induction l with
  | nil => intro a; exact le_refl a
  | cons b t ih =>
    intro a
    calc a ≤ Nat.max a b := Nat.le_max_left a b
      _ ≤ t.foldl Nat.max (Nat.max a b) := ih (Nat.max a b)

theorem foldl_max_le (l : List Nat) : ∀ (a x : Nat), x ∈ l →
    x ≤ l.foldl Nat.max a := by
  induction l with
  | nil => intro a x hx; cases hx
  | cons b t ih =>
    intro a x hx
    rcases List.mem_cons.mp hx with h | h
    · subst h
      have hb : x ≤ Nat.max a x := Nat.le_max_right a x
      calc x ≤ Nat.max a x := hb
        _ ≤ (t.foldl Nat.max (Nat.max a x)) := foldl_max_init t (Nat.max a x)
    · exact ih (Nat.max a b) x h

theorem foldl_max_mem (l : List Nat) : ∀ a : Nat, l.foldl Nat.max a ∈ a :: l := by
  induction l with
  | nil => intro a; simp
  | cons b t ih =>
    intro a
    have h := ih (Nat.max a b)
    have hchoice : Nat.max a b = a ∨ Nat.max a b = b := by
      rcases Nat.le_total a b with hab | hab
      · right
        exact Nat.max_eq_right hab
      · left
        exact Nat.max_eq_left hab
    rw [List.foldl_cons]
    rcases List.mem_cons.mp h with h1 | h1
    · rw [h1]
      rcases hchoice with hm | hm
      · rw [hm]
        exact List.mem_cons_self _ _
      · rw [hm]
        exact List.mem_cons_of_mem _ (List.mem_cons_self _ _)
    · exact List.mem_cons_of_mem _ (List.mem_cons_of_mem _ h1)

theorem foldl_max_zero_mem (l : List Nat) (h : l ≠ []) :
    l.foldl Nat.max 0 ∈ l := by
  rcases List.mem_cons.mp (foldl_max_mem l 0) with h1 | h1
  · cases l with
    | nil => exact absurd rfl h
    | cons b t =>
      have hb : b ≤ (b :: t).foldl Nat.max 0 := foldl_max_le _ 0 b (by simp)
      rw [h1] at hb
      have hb0 : b = 0 := by omega
      rw [h1, hb0]
      exact List.mem_cons_self _ _
  · exact h1

/-- Claim C5: `sendBatch` of zero messages fails with the EmptyBatch
user-facing `TypeError`; for an accepted batch of N ≥ 1 messages, the
reported aggregate metadata satisfies count = N, totalBytes = the sum of
the serialized payload sizes and largestMessageBytes = their maximum,
and the three values are attached as the `CF-Queue-Batch-Count`,
`CF-Queue-Batch-Bytes` and `CF-Queue-Largest-Msg` headers. -/
theorem sendBatch_empty_and_metadata (flags : Bool)
    (options : Option SendBatchOptions) :
    (WorkerQueue.sendBatch flags [] options =
      .error "sendBatch() requires at least one message") ∧
    (∀ (batch : List MessageSendRequest) (items : List SerializedWithOptions),
      batch ≠ [] → serializeBatch flags batch = .ok items →
      ∃ r, WorkerQueue.sendBatch flags batch options = .ok r ∧
        r.messageCount = batch.length ∧
        r.totalSize = (items.map (fun m => m.data.length)).sum ∧
        r.largestMessage = (items.map (fun m => m.data.length)).foldl Nat.max 0 ∧
        (∀ x ∈ items.map (fun m => m.data.length), x ≤ r.largestMessage) ∧
        r.largestMessage ∈ items.map (fun m => m.data.length) ∧
        ("CF-Queue-Batch-Count", kjStrNat batch.length) ∈ r.headers ∧
        ("CF-Queue-Batch-Bytes", kjStrNat r.totalSize) ∈ r.headers ∧
        ("CF-Queue-Largest-Msg", kjStrNat r.largestMessage) ∈ r.headers) := by
  constructor
  · rfl
  · intro batch items hne hser
    have hpos : batch.length > 0 := by
      cases batch with
      | nil => exact absurd rfl hne
      | cons m rest => simp
    have hitems : items ≠ [] := by
      intro hcontra
      have := serializeBatch_length flags batch items hser
      rw [hcontra] at this
      cases batch with
      | nil => exact absurd rfl hne
      | cons m rest => simp at this
    refine ⟨QueueBatchRequest.mk "https://fake-host/batch"
        ([("CF-Queue-Batch-Count", kjStrNat batch.length),
          ("CF-Queue-Batch-Bytes", kjStrNat ((items.map (fun m => m.data.length)).sum)),
          ("CF-Queue-Largest-Msg",
            kjStrNat ((items.map (fun m => m.data.length)).foldl Nat.max 0)),
          ("Content-Type", MimeType.JSON)] ++ batchDelayHeader options)
        (bodyBuilderChars items) batch.length
        ((items.map (fun m => m.data.length)).sum)
        ((items.map (fun m => m.data.length)).foldl Nat.max 0),
      ?_, rfl, rfl, rfl, ?_, ?_, ?_, ?_, ?_⟩
    · unfold WorkerQueue.sendBatch
      rw [if_pos hpos, hser]
    · intro x hx
      exact foldl_max_le _ 0 x hx
    · apply foldl_max_zero_mem
      simpa using hitems
    · simp
    · simp
    · simp

theorem sendBatch_empty_and_metadata_witness :
    ∃ r, WorkerQueue.sendBatch false
        [{ body := .bytes [1, 2, 3] }, { body := .str "x", contentType := some "text" }]
        none = .ok r ∧
      r.messageCount = 2 ∧
      ("CF-Queue-Batch-Count", kjStrNat 2) ∈ r.headers := by
  obtain ⟨-, h2⟩ := sendBatch_empty_and_metadata false none
  obtain ⟨r, hr, hc, -, -, -, -, hh, -⟩ :=
    h2 [{ body := .bytes [1, 2, 3] }, { body := .str "x", contentType := some "text" }]
      [{ data := serializeV8 (.bytes [1, 2, 3]) },
       { data := utf8Encode "x", contentType := some "text" }]
      (by decide) (by rfl)
  exact ⟨r, hr, hc, hh⟩

/-! ## Parsing the batch body back (claim C3)

The batch body is `\x7b"messages":[o1,...,oN]\x7d` where each `oi` is a flat
JSON object (its interior holds no brace: base64 text, the validated
tags, decimal delays and the fixed punctuation only).  The parser below
strips the envelope and splits the flat objects on top-level commas. -/

/-- `braceFree l`: no brace character occurs in `l`. -/
def braceFree (l : List Char) : Prop := ∀ c ∈ l, c ≠ '\x7b' ∧ c ≠ '\x7d'

/-- Consume an expected literal head. -/
def dropHead : List Char → List Char → Option (List Char)
  | [], input => some input
  | _ :: _, [] => none
  | e :: es, c :: cs => if c = e then dropHead es cs else none

/-- Scan one flat JSON object's interior up to its closing brace,
failing on a nested opening brace. -/
def scanObjBody : List Char → List Char → Option (List Char × List Char)
  | _, [] => none
  | acc, c :: rest =>
    if c = '\x7d' then some (acc.reverse, rest)
    else if c = '\x7b' then none
    else scanObjBody (c :: acc) rest

/-- Parse a non-empty comma-separated sequence of flat JSON objects
(the fuel bounds the number of objects). -/
def parseObjs : Nat → List Char → Option (List String)
  | 0, _ => none
  | _ + 1, [] => none
  | fuel + 1, c :: rest =>
    if c = '\x7b' then
      match scanObjBody [] rest with
      | none => none
      | some (interior, rest2) =>
        match rest2 with
        | [] => some [String.mk ('\x7b' :: (interior ++ ['\x7d']))]
        | ',' :: rest3 =>
          (match parseObjs fuel rest3 with
          | none => none
          | some objs => some (String.mk ('\x7b' :: (interior ++ ['\x7d'])) :: objs))
        | _ => none
    else none

/-- Parse a batch body back into the list of its message objects. -/
def parseBatchBody (s : String) : Option (List String) :=
  (dropHead "\x7b\"messages\":[".toList s.data).bind (fun rest =>
    match rest.reverse with
    | c1 :: c2 :: innerRev =>
      if c1 = '\x7d' ∧ c2 = ']' then parseObjs (innerRev.length + 1) innerRev.reverse
      else none
    | _ => none)

theorem dropHead_append (pre : List Char) : ∀ rest : List Char,
    dropHead pre (pre ++ rest) = some rest := by
  induction pre with
  | nil => intro rest; rfl
  | cons e es ih =>
    intro rest
    simp only [List.cons_append, dropHead, if_pos rfl]
    exact ih rest

theorem scanObjBody_spec (interior : List Char) (hbf : braceFree interior) :
    ∀ (acc rest : List Char),
    scanObjBody acc (interior ++ '\x7d' :: rest) = some (acc.reverse ++ interior, rest) := by
  induction interior with
  | nil =>
    intro acc rest
    simp only [List.nil_append, scanObjBody, if_pos rfl]
    simp
  | cons c cs ih =>
    intro acc rest
    obtain ⟨hc1, hc2⟩ := hbf c (List.mem_cons_self c cs)
    have hbf2 : braceFree cs := fun x hx => hbf x (List.mem_cons_of_mem c hx)
    simp only [List.cons_append, scanObjBody, if_neg hc2, if_neg hc1]
    show scanObjBody (c :: acc) (cs ++ '\x7d' :: rest) = some (acc.reverse ++ c :: cs, rest)
    rw [ih hbf2 (c :: acc) rest]
    simp

/-- The shape every emitted message object has: an opening brace, a brace-free interior, a closing brace. -/
def SimpleObj (o : String) : Prop :=
  ∃ interior, o.data = '\x7b' :: (interior ++ ['\x7d']) ∧ braceFree interior

theorem stringMk_data (s : String) : String.mk s.data = s := by
  cases s
  rfl

theorem parseObjs_spec : ∀ (objs : List String) (fuel : Nat), objs ≠ [] →
    objs.length ≤ fuel → (∀ o ∈ objs, SimpleObj o) →
    parseObjs fuel (joinComma (objs.map String.data)) = some objs := by
  intro objs
  induction objs with
  | nil => intro fuel h; exact absurd rfl h
  | cons o rest ih =>
    intro fuel _ hfuel hshape
    obtain ⟨int, hdata, hbf⟩ := hshape o (List.mem_cons_self o rest)
    have hfuel1 : 1 ≤ fuel := le_trans (by simp) hfuel
    obtain ⟨f, rfl⟩ : ∃ f, fuel = f + 1 := ⟨fuel - 1, by omega⟩
    cases rest with
    | nil =>
      simp only [List.map, joinComma]
      rw [hdata]
      rw [parseObjs, if_pos rfl]
      have : int ++ ['\x7d'] = int ++ '\x7d' :: [] := rfl
      rw [this, scanObjBody_spec int hbf [] []]
      simp only [List.nil_append, List.reverse_nil]
      rw [← hdata, stringMk_data]
    | cons o2 rest2 =>
      have hne2 : o2 :: rest2 ≠ [] := by simp
      have hshape2 : ∀ x ∈ o2 :: rest2, SimpleObj x :=
        fun x hx => hshape x (List.mem_cons_of_mem o hx)
      have hjoin : joinComma ((o :: o2 :: rest2).map String.data) =
          o.data ++ ',' :: joinComma ((o2 :: rest2).map String.data) := rfl
      rw [hjoin, hdata]
      have hassoc : ('\x7b' :: (int ++ ['\x7d'])) ++
          ',' :: joinComma ((o2 :: rest2).map String.data) =
          '\x7b' :: (int ++ '\x7d' ::
            (',' :: joinComma ((o2 :: rest2).map String.data))) := by
        simp
      rw [hassoc]
      rw [parseObjs, if_pos rfl]
      rw [scanObjBody_spec int hbf [] _]
      simp only [List.reverse_nil, List.nil_append]
      rw [ih f hne2 (by simpa using hfuel) hshape2]
      rw [← hdata, stringMk_data]

theorem joinComma_length_ge : ∀ ls : List (List Char), (∀ x ∈ ls, 1 ≤ x.length) →
    ls.length ≤ (joinComma ls).length + 1 := by
  intro ls
  induction ls with
  | nil => intro _; simp
  | cons x xs ih =>
    intro hx
    cases xs with
    | nil =>
      have := hx x (List.mem_cons_self x [])
      simp only [joinComma, List.length_cons, List.length_nil]
      omega
    | cons y ys =>
      have hxlen := hx x (List.mem_cons_self x (y :: ys))
      have hrest := ih (fun z hz => hx z (List.mem_cons_of_mem x hz))
      have hjoin : joinComma (x :: y :: ys) = x ++ ',' :: joinComma (y :: ys) := rfl
      rw [hjoin]
      simp only [List.length_cons, List.length_append] at *
      omega

theorem parseBatchBody_inverts (objs : List String) (hne : objs ≠ [])
    (hshape : ∀ o ∈ objs, SimpleObj o) :
    parseBatchBody (String.mk ("\x7b\"messages\":[".toList ++
      joinComma (objs.map String.data) ++ "]\x7d".toList)) = some objs := by
  unfold parseBatchBody
  have hdrop : dropHead "\x7b\"messages\":[".toList
      (("\x7b\"messages\":[".toList ++
        joinComma (objs.map String.data) ++ "]\x7d".toList)) =
      some (joinComma (objs.map String.data) ++ "]\x7d".toList) := by
    rw [List.append_assoc]
    exact dropHead_append _ _
  simp only [stringMk_data]
  rw [hdrop]
  have htail : (joinComma (objs.map String.data) ++ "]\x7d".toList).reverse =
      '\x7d' :: ']' :: (joinComma (objs.map String.data)).reverse := by
    simp
  simp only [Option.some_bind]
  rw [htail]
  dsimp only
  rw [if_pos ⟨rfl, rfl⟩]
  simp only [List.reverse_reverse, List.length_reverse]
  apply parseObjs_spec objs _ hne _ hshape
  have hlens : ∀ x ∈ objs.map String.data, 1 ≤ x.length := by
    intro x hx
    rcases List.mem_map.mp hx with ⟨o, ho, rfl⟩
    obtain ⟨int, hdata, _⟩ := hshape o ho
    rw [hdata]
    simp
  have := joinComma_length_ge (objs.map String.data) hlens
  simp only [List.length_map] at this
  omega

/-! ### Claim C3: the wire body shape and its parse-back -/

/-- The content types a serialized batch item can carry. -/
def ctAllowed (o : Option String) : Prop :=
  o = none ∨ o = some ContentType.TEXT ∨ o = some ContentType.BYTES ∨
    o = some ContentType.JSON ∨ o = some ContentType.V8

theorem validateContentType_ok (ct v : String)
    (h : validateContentType ct = .ok v) :
    v = ContentType.TEXT ∨ v = ContentType.BYTES ∨ v = ContentType.JSON ∨
      v = ContentType.V8 := by
  unfold validateContentType at h
  dsimp only at h
  split at h
  · cases h
    exact Or.inl rfl
  · split at h
    · cases h
      exact Or.inr (Or.inl rfl)
    · split at h
      · cases h
        exact Or.inr (Or.inr (Or.inl rfl))
      · split at h
        · cases h
          exact Or.inr (Or.inr (Or.inr rfl))
        · exact Except.noConfusion h

theorem serializeItem_ok_fields (flags : Bool) (message : MessageSendRequest)
    (item : SerializedWithOptions)
    (h : serializeItem flags message = .ok item) :
    ctAllowed item.contentType ∧ item.delaySeconds = message.delaySeconds := by
  unfold serializeItem at h
  split at h
  · exact Except.noConfusion h
  · cases hct : message.contentType with
    | some contentType =>
      rw [hct] at h
      dsimp only at h
      cases hv : validateContentType contentType with
      | error e =>
        rw [hv] at h
        exact Except.noConfusion h
      | ok validated =>
        rw [hv] at h
        cases hs : serialize message.body contentType .shallowReference with
        | error e =>
          rw [hs] at h
          exact Except.noConfusion h
        | ok d =>
          rw [hs] at h
          cases h
          refine ⟨?_, rfl⟩
          rcases validateContentType_ok contentType validated hv with h1 | h1 | h1 | h1 <;>
            simp [ctAllowed, h1]
    | none =>
      rw [hct] at h
      dsimp only at h
      split at h
      · cases hs : serialize message.body ContentType.JSON .shallowReference with
        | error e =>
          rw [hs] at h
          exact Except.noConfusion h
        | ok d =>
          rw [hs] at h
          cases h
          exact ⟨Or.inr (Or.inr (Or.inr (Or.inl rfl))), rfl⟩
      · cases h
        exact ⟨Or.inl rfl, rfl⟩

theorem serializeBatch_all (flags : Bool) :
    ∀ (batch : List MessageSendRequest) (items : List SerializedWithOptions),
    serializeBatch flags batch = .ok items →
    ∀ item ∈ items, ∃ msg ∈ batch, serializeItem flags msg = .ok item := by
  intro batch
  induction batch with
  | nil =>
    intro items h item hitem
    simp [serializeBatch] at h
    subst h
    cases hitem
  | cons m rest ih =>
    intro items h item hitem
    rw [serializeBatch] at h
    cases h1 : serializeItem flags m with
    | error e =>
      rw [h1] at h
      exact Except.noConfusion h
    | ok first =>
      rw [h1] at h
      cases h2 : serializeBatch flags rest with
      | error e =>
        rw [h2] at h
        exact Except.noConfusion h
      | ok items2 =>
        rw [h2] at h
        cases h
        rcases List.mem_cons.mp hitem with heq | hmem
        · subst heq
          exact ⟨m, List.mem_cons_self m rest, h1⟩
        · obtain ⟨msg, hmsg, hok⟩ := ih items2 h2 item hmem
          exact ⟨msg, List.mem_cons_of_mem m hmsg, hok⟩

theorem ctPartChars_not_brace (m : SerializedWithOptions)
    (hct : ctAllowed m.contentType) :
    ∀ c ∈ ctPartChars m, c ≠ '\x7b' ∧ c ≠ '\x7d' := by
  rcases hct with h | h | h | h | h <;> rw [ctPartChars, h] <;> decide

theorem delayPartChars_not_brace (m : SerializedWithOptions) :
    ∀ c ∈ delayPartChars m, c ≠ '\x7b' ∧ c ≠ '\x7d' := by
  intro c hc
  unfold delayPartChars at hc
  cases hd : m.delaySeconds with
  | none =>
    rw [hd] at hc
    cases hc
  | some d =>
    rw [hd] at hc
    dsimp only at hc
    rcases List.mem_append.mp hc with h1 | h2
    · have hall : ∀ x ∈ ",\"delaySecs\": ".toList, x ≠ '\x7b' ∧ x ≠ '\x7d' := by
        decide
      exact hall c h1
    · exact intDecChars_not_brace d c h2

theorem messageJson_simple (m : SerializedWithOptions)
    (hct : ctAllowed m.contentType) :
    SimpleObj (String.mk (messageJsonChars m)) := by
  refine ⟨"\x22body\x22:\x22".toList ++ encodeBase64 m.data ++ "\x22".toList ++
    ctPartChars m ++ delayPartChars m, ?_, ?_⟩
  · show messageJsonChars m = _
    unfold messageJsonChars
    have hhead : "\x7b\x22body\x22:\x22".toList =
        '\x7b' :: "\x22body\x22:\x22".toList := by decide
    rw [hhead]
    simp [List.append_assoc]
  · intro c hc
    simp only [List.append_assoc, List.mem_append] at hc
    rcases hc with h | h | h | h | h
    · revert h; revert c; decide
    · exact encodeBase64_not_brace m.data c h
    · revert h; revert c; decide
    · exact ctPartChars_not_brace m hct c h
    · exact delayPartChars_not_brace m c h

/-- Claim C3: for every non-empty batch accepted by `sendBatch`, the
wire body is exactly the envelope `\x7b"messages":[...]\x7d` holding one
comma-joined object per input message in input order; each object has
its fields in the order `body` (the base64 of the serialized payload),
then `contentType` (only when one applies), then `delaySecs` (only when
a per-message delay was given), absent fields being omitted entirely;
and parsing the body back yields exactly N objects in the original
order. -/
theorem sendBatch_wire_body (flags : Bool) (options : Option SendBatchOptions)
    (batch : List MessageSendRequest) (items : List SerializedWithOptions)
    (hne : batch ≠ []) (hser : serializeBatch flags batch = .ok items) :
    (∀ r, WorkerQueue.sendBatch flags batch options = .ok r →
      r.body = bodyBuilderChars items) ∧
    bodyBuilderChars items = "\x7b\x22messages\x22:[".toList ++
      joinComma (items.map messageJsonChars) ++ "]\x7d".toList ∧
    (∀ m ∈ items, messageJsonChars m =
      "\x7b\x22body\x22:\x22".toList ++ encodeBase64 m.data ++ "\x22".toList ++
        ctPartChars m ++ delayPartChars m ++ "\x7d".toList) ∧
    parseBatchBody (String.mk (bodyBuilderChars items)) =
      some (items.map (fun m => String.mk (messageJsonChars m))) ∧
    (items.map (fun m => String.mk (messageJsonChars m))).length = batch.length := by
  have hpos : batch.length > 0 := by
    cases batch with
    | nil => exact absurd rfl hne
    | cons m rest => simp
  have hlen := serializeBatch_length flags batch items hser
  have hitems : items ≠ [] := by
    intro hcontra
    rw [hcontra] at hlen
    simp at hlen
    omega
  have hshapes : ∀ o ∈ items.map (fun m => String.mk (messageJsonChars m)),
      SimpleObj o := by
    intro o ho
    rcases List.mem_map.mp ho with ⟨m, hm, rfl⟩
    obtain ⟨msg, _, hok⟩ := serializeBatch_all flags batch items hser m hm
    exact messageJson_simple m (serializeItem_ok_fields flags msg m hok).1
  refine ⟨?_, rfl, ?_, ?_, ?_⟩
  · intro r hr
    unfold WorkerQueue.sendBatch at hr
    rw [if_pos hpos, hser] at hr
    cases hr
    rfl
  · intro m _
    rfl
  · have hmaps : (items.map (fun m => String.mk (messageJsonChars m))).map
        String.data = items.map messageJsonChars := by
      rw [List.map_map]
      rfl
    have := parseBatchBody_inverts (items.map (fun m => String.mk (messageJsonChars m)))
      (by simpa using hitems) hshapes
    rw [hmaps] at this
    exact this
  · rw [List.length_map]
    exact hlen

theorem sendBatch_wire_body_witness :
    parseBatchBody (String.mk (bodyBuilderChars
        [{ data := utf8Encode "hi", contentType := some ContentType.TEXT },
         { data := [1, 2, 3], contentType := some ContentType.BYTES,
           delaySeconds := some 5 }])) =
      some ([{ data := utf8Encode "hi", contentType := some ContentType.TEXT },
         { data := [1, 2, 3], contentType := some ContentType.BYTES,
           delaySeconds := some 5 }].map
        (fun m => String.mk (messageJsonChars m))) ∧
    ([{ data := utf8Encode "hi", contentType := some ContentType.TEXT },
      { data := [1, 2, 3], contentType := some ContentType.BYTES,
        delaySeconds := some 5 }].map
        (fun m => String.mk (messageJsonChars m))).length = 2 := by
  obtain ⟨-, -, -, hparse, hlen⟩ := sendBatch_wire_body false none
    [{ body := .str "hi", contentType := some "text" },
     { body := .bytes [1, 2, 3], contentType := some "bytes", delaySeconds := some 5 }]
    [{ data := utf8Encode "hi", contentType := some ContentType.TEXT },
     { data := [1, 2, 3], contentType := some ContentType.BYTES,
       delaySeconds := some 5 }]
    (by simp) rfl
  exact ⟨hparse, hlen⟩

/-! ### Claim C10: the body-size estimate covers the built body -/

/-- The range of a C++ `int` delay value (`delaySeconds` is an `int` in
the source). -/
def delayInRange : Option Int → Prop
  | none => True
  | some d => -(2 ^ 31) ≤ d ∧ d < 2 ^ 31

theorem ctPartChars_length_le (m : SerializedWithOptions)
    (hct : ctAllowed m.contentType) : (ctPartChars m).length ≤ 22 := by
  rcases hct with h | h | h | h | h <;> rw [ctPartChars, h] <;> decide

theorem delayPartChars_length_le (m : SerializedWithOptions)
    (hd : delayInRange m.delaySeconds) : (delayPartChars m).length ≤ 25 := by
  unfold delayPartChars
  cases hds : m.delaySeconds with
  | none => simp
  | some d =>
    rw [hds] at hd
    obtain ⟨h1, h2⟩ := hd
    have hlen := intDecChars_length d h1 h2
    simp only [List.length_append]
    have : (",\"delaySecs\": ".toList).length = 14 := by decide
    omega

theorem messageJsonChars_length_le (m : SerializedWithOptions)
    (hct : ctAllowed m.contentType) (hd : delayInRange m.delaySeconds) :
    (messageJsonChars m).length ≤ 58 + (m.data.length + 2) / 3 * 4 := by
  unfold messageJsonChars
  simp only [List.length_append]
  have h1 : ("\x7b\x22body\x22:\x22".toList).length = 9 := by decide
  have h2 : ("\x22".toList).length = 1 := by decide
  have h3 : ("\x7d".toList).length = 1 := by decide
  have h4 := encodeBase64_length m.data
  have h5 := ctPartChars_length_le m hct
  have h6 := delayPartChars_length_le m hd
  omega

theorem joinComma_length : ∀ ls : List (List Char), ls ≠ [] →
    (joinComma ls).length = (ls.map List.length).sum + (ls.length - 1) := by
  intro ls
  induction ls with
  | nil => intro h; exact absurd rfl h
  | cons x xs ih =>
    intro _
    cases xs with
    | nil => simp [joinComma]
    | cons y ys =>
      have hjoin : joinComma (x :: y :: ys) = x ++ ',' :: joinComma (y :: ys) := rfl
      rw [hjoin]
      simp only [List.length_append, List.length_cons, List.map, List.sum_cons]
      rw [ih (by simp)]
      simp only [List.map, List.sum_cons, List.length_cons]
      omega

theorem sum_ceil_le : ∀ l : List Nat, l ≠ [] →
    (l.map (fun n => (n + 2) / 3)).sum ≤ (l.sum + 2) / 3 + (l.length - 1) := by
  intro l
  induction l with
  | nil => intro h; exact absurd rfl h
  | cons a rest ih =>
    intro _
    cases rest with
    | nil => simp
    | cons b t =>
      have hrec := ih (by simp)
      simp only [List.map, List.sum_cons, List.length_cons] at *
      have hsplit : (a + 2) / 3 + ((b :: t).sum + 2) / 3 ≤
          (a + (b :: t).sum + 2) / 3 + 1 := by omega
      omega

theorem sum_map_le {α : Type} (l : List α) (f g : α → Nat)
    (h : ∀ x ∈ l, f x ≤ g x) : (l.map f).sum ≤ (l.map g).sum := by
  induction l with
  | nil => simp
  | cons a rest ih =>
    simp only [List.map, List.sum_cons]
    have h1 := h a (List.mem_cons_self a rest)
    have h2 := ih (fun x hx => h x (List.mem_cons_of_mem a hx))
    omega

theorem sum_map_const_add {α : Type} (l : List α) (f : α → Nat) (c : Nat) :
    (l.map (fun x => c + f x)).sum = c * l.length + (l.map f).sum := by
  induction l with
  | nil => simp
  | cons a rest ih =>
    simp only [List.map, List.sum_cons, List.length_cons, ih]
    ring

theorem sum_map_mul_four {α : Type} (l : List α) (f : α → Nat) :
    (l.map (fun x => f x * 4)).sum = 4 * (l.map f).sum := by
  induction l with
  | nil => simp
  | cons a rest ih =>
    simp only [List.map, List.sum_cons, ih]
    ring

/-- Claim C10: for every non-empty batch accepted by `sendBatch` (so
every item carries one of the validated content types, and every delay
fits in a C++ `int`), the assembled body including its trailing NUL
never exceeds the pre-computed estimate
`(totalSize + 2) / 3 * 4 + messageCount * 64 + 32`: the debug assertion
`bodyBuilder.size() <= estimatedSize` holds. -/
theorem sendBatch_size_estimate (flags : Bool)
    (batch : List MessageSendRequest) (items : List SerializedWithOptions)
    (hne : batch ≠ []) (hser : serializeBatch flags batch = .ok items)
    (hdelay : ∀ msg ∈ batch, delayInRange msg.delaySeconds) :
    (bodyBuilderChars items).length + 1 ≤ estimatedSize items := by
  have hitem : ∀ m ∈ items, ctAllowed m.contentType ∧ delayInRange m.delaySeconds := by
    intro m hm
    obtain ⟨msg, hmsg, hok⟩ := serializeBatch_all flags batch items hser m hm
    obtain ⟨hct, hd⟩ := serializeItem_ok_fields flags msg m hok
    rw [hd]
    exact ⟨hct, hdelay msg hmsg⟩
  have hitems : items ≠ [] := by
    intro hcontra
    have hlen := serializeBatch_length flags batch items hser
    rw [hcontra] at hlen
    simp at hlen
    cases batch with
    | nil => exact absurd rfl hne
    | cons m rest => simp at hlen
  -- component lengths
  unfold bodyBuilderChars estimatedSize
  simp only [List.length_append]
  have hhead : ("\x7b\x22messages\x22:[".toList).length = 13 := by decide
  have htail : ("]\x7d".toList).length = 2 := by decide
  have hjoin := joinComma_length (items.map messageJsonChars)
    (by simpa using hitems)
  rw [List.length_map] at hjoin
  -- per-object bound, summed
  have hobj : ((items.map messageJsonChars).map List.length).sum ≤
      ((items.map (fun m => 58 + (m.data.length + 2) / 3 * 4)).sum) := by
    rw [List.map_map]
    apply sum_map_le
    intro m hm
    obtain ⟨hct, hd⟩ := hitem m hm
    exact messageJsonChars_length_le m hct hd
  have hconst : (items.map (fun m => 58 + (m.data.length + 2) / 3 * 4)).sum =
      58 * items.length + (items.map (fun m => (m.data.length + 2) / 3 * 4)).sum := by
    exact sum_map_const_add items (fun m => (m.data.length + 2) / 3 * 4) 58
  have hfour : (items.map (fun m => (m.data.length + 2) / 3 * 4)).sum =
      4 * (items.map (fun m => (m.data.length + 2) / 3)).sum :=
    sum_map_mul_four items (fun m => (m.data.length + 2) / 3)
  have hceil : (items.map (fun m => (m.data.length + 2) / 3)).sum ≤
      ((items.map (fun m => m.data.length)).sum + 2) / 3 + (items.length - 1) := by
    have hmm : items.map (fun m => (m.data.length + 2) / 3) =
        (items.map (fun m => m.data.length)).map (fun n => (n + 2) / 3) := by
      rw [List.map_map]
      rfl
    rw [hmm]
    have := sum_ceil_le (items.map (fun m => m.data.length))
      (by simpa using hitems)
    rw [List.length_map] at this
    exact this
  have hpos : 1 ≤ items.length := by
    cases items with
    | nil => exact absurd rfl hitems
    | cons a rest => simp
  omega

theorem sendBatch_size_estimate_witness :
    (bodyBuilderChars
        [SerializedWithOptions.mk [1, 2, 3] (some ContentType.BYTES) (some 5)]).length
        + 1 ≤
      estimatedSize
        [SerializedWithOptions.mk [1, 2, 3] (some ContentType.BYTES) (some 5)] := by
  refine sendBatch_size_estimate false
    [MessageSendRequest.mk (.bytes [1, 2, 3]) (some "bytes") (some 5)]
    [SerializedWithOptions.mk [1, 2, 3] (some ContentType.BYTES) (some 5)]
    (by simp) rfl ?_
  intro msg hm
  simp only [List.mem_singleton] at hm
  subst hm
  exact ⟨by decide, by decide⟩

/-! ## Outcomes and the RPC result exchange -/

/-- `EventOutcome` (the outcome enum of the event schema; the claims use
OK, EXCEPTION and EXCEEDED_CPU; the limit enforcer can also report other
exceeded-resource outcomes such as EXCEEDED_MEMORY). -/
inductive EventOutcome where
  | unknown
  | ok
  | exception
  | exceededCpu
  | exceededMemory
  | canceled
deriving DecidableEq, Repr

/-- One entry of the wire `retryMessages` sequence:
`\x7bmsgId, delaySeconds?\x7d` (the `delaySeconds` union member is `some` iff
`isDelaySeconds()`). -/
structure QueueRetryMessageWire where
  msgId : String
  delaySeconds : Option Int := none
deriving DecidableEq, Repr

/-- The RPC response result record
(`resp.getResult()` in `QueueCustomEventImpl::sendRpc`):
`ackAll`, `retryBatch \x7bretry, delaySeconds?\x7d`, `explicitAcks`,
`retryMessages`, `outcome`. -/
structure RpcQueueResult where
  ackAll : Bool
  retryBatchRetry : Bool
  retryBatchDelaySeconds : Option Int := none
  explicitAcks : List String := []
  retryMessages : List QueueRetryMessageWire := []
  outcome : EventOutcome := .unknown
deriving DecidableEq, Repr

/-- The response handling of `QueueCustomEventImpl::sendRpc` (queue.c++
lines 732-756): overwrite `ackAll` and `retryBatch.retry`; overwrite
`retryBatch.delaySeconds` only when the wire union carries one; clear
`explicitAcks` and insert the wire ids; clear `retries` and upsert the
wire entries; return the wire outcome. -/
def QueueCustomEventImpl.applyRpcResponse (result : QueueEventResult)
    (respResult : RpcQueueResult) : QueueEventResult × EventOutcome :=
  let r1 : QueueEventResult :=
    { result with
      ackAll := respResult.ackAll,
      retryBatch :=
        { retry := respResult.retryBatchRetry,
          delaySeconds :=
            match respResult.retryBatchDelaySeconds with
            | some d => some d
            | none => result.retryBatch.delaySeconds } }
  let r2 : QueueEventResult :=
    { r1 with
      explicitAcks := respResult.explicitAcks.foldl
        (fun acc msgId => acc ++ [msgId]) [],
      retries := respResult.retryMessages.foldl
        (fun acc retry => upsertEntry acc retry.msgId
          { delaySeconds := retry.delaySeconds }) [] }
  (r2, respResult.outcome)

/-- Claim C8, counterexample.  The claim states that on receipt of the
RPC response the local ledger is replaced wholesale, with `retryBatch`
(retry flag and optional `delaySeconds`) overwritten from the wire record
so that no pre-existing local entry survives.  But the code overwrites
`retryBatch.delaySeconds` only when the wire union carries a delay
(`retryBatch.isDelaySeconds()`): starting from a local ledger whose
`retryBatch.delaySeconds` is `some 7` and receiving a wire record whose
`retryBatch` carries no `delaySeconds`, the stale local value `some 7`
survives instead of being replaced by `none`. -/
theorem applyRpcResponse_claim_counterexample :
    (QueueCustomEventImpl.applyRpcResponse
        { retryBatch := { retry := false, delaySeconds := some 7 } }
        { ackAll := false, retryBatchRetry := false,
          retryBatchDelaySeconds := none, explicitAcks := [],
          retryMessages := [], outcome := .ok }).1.retryBatch.delaySeconds =
      some 7 ∧
    ({ ackAll := false, retryBatchRetry := false, retryBatchDelaySeconds := none,
       explicitAcks := [], retryMessages := [],
       outcome := .ok } : RpcQueueResult).retryBatchDelaySeconds = none := by
  decide

/-- Claim C8, amended: on receipt of the RPC response the local
`explicitAcks` and `retries` are cleared and repopulated exactly from the
wire `explicitAcks` and `retryMessages` sequences (so nothing previously
stored in them survives and the rebuilt collections do not depend on the
local pre-state at all), `ackAll` and `retryBatch.retry` are overwritten
from the wire record, and the returned outcome is the wire outcome —
but `retryBatch.delaySeconds` is overwritten only when the wire record
carries a `delaySeconds`; when the wire omits it, the pre-existing local
value survives. -/
theorem applyRpcResponse_replaces (result other : QueueEventResult)
    (respResult : RpcQueueResult) :
    ((QueueCustomEventImpl.applyRpcResponse result respResult).1.ackAll =
      respResult.ackAll) ∧
    ((QueueCustomEventImpl.applyRpcResponse result respResult).1.retryBatch.retry =
      respResult.retryBatchRetry) ∧
    ((QueueCustomEventImpl.applyRpcResponse result respResult).1.retryBatch.delaySeconds =
      match respResult.retryBatchDelaySeconds with
      | some d => some d
      | none => result.retryBatch.delaySeconds) ∧
    ((QueueCustomEventImpl.applyRpcResponse result respResult).1.explicitAcks =
      respResult.explicitAcks) ∧
    ((QueueCustomEventImpl.applyRpcResponse result respResult).1.explicitAcks =
      (QueueCustomEventImpl.applyRpcResponse other respResult).1.explicitAcks) ∧
    ((QueueCustomEventImpl.applyRpcResponse result respResult).1.retries =
      (QueueCustomEventImpl.applyRpcResponse other respResult).1.retries) ∧
    ((respResult.retryMessages.map (fun rm => rm.msgId)).Nodup →
      (QueueCustomEventImpl.applyRpcResponse result respResult).1.retries =
        respResult.retryMessages.map
          (fun rm => (rm.msgId, ({ delaySeconds := rm.delaySeconds } : RetryEntry)))) ∧
    ((QueueCustomEventImpl.applyRpcResponse result respResult).2 =
      respResult.outcome) := by
  refine ⟨rfl, rfl, rfl, ?_, ?_, rfl, ?_, rfl⟩
  · show respResult.explicitAcks.foldl (fun acc msgId => acc ++ [msgId]) [] =
      respResult.explicitAcks
    have hgen : ∀ (l acc : List String),
        l.foldl (fun acc msgId => acc ++ [msgId]) acc = acc ++ l := by
      intro l
      induction l with
      | nil => intro acc; simp
      | cons x xs ih =>
        intro acc
        simp only [List.foldl_cons, ih]
        simp
    simpa using hgen respResult.explicitAcks []
  · rfl
  · intro hnodup
    show respResult.retryMessages.foldl
        (fun acc retry => upsertEntry acc retry.msgId
          { delaySeconds := retry.delaySeconds }) [] = _
    have hupsert_fresh : ∀ (acc : List (String × RetryEntry)) (k : String)
        (v : RetryEntry), (∀ p ∈ acc, p.1 ≠ k) →
        upsertEntry acc k v = acc ++ [(k, v)] := by
      intro acc
      induction acc with
      | nil => intro k v _; rfl
      | cons p rest ih =>
        intro k v hfresh
        obtain ⟨k1, v1⟩ := p
        have hne : k1 ≠ k := hfresh (k1, v1) (List.mem_cons_self _ _)
        simp only [upsertEntry, if_neg hne, List.cons_append]
        rw [ih k v (fun q hq => hfresh q (List.mem_cons_of_mem _ hq))]
    have hgen : ∀ (l : List QueueRetryMessageWire)
        (acc : List (String × RetryEntry)),
        (l.map (fun rm => rm.msgId)).Nodup →
        (∀ p ∈ acc, ∀ rm ∈ l, p.1 ≠ rm.msgId) →
        l.foldl (fun acc retry => upsertEntry acc retry.msgId
          { delaySeconds := retry.delaySeconds }) acc =
        acc ++ l.map (fun rm => (rm.msgId,
          ({ delaySeconds := rm.delaySeconds } : RetryEntry))) := by
      intro l
      induction l with
      | nil => intro acc _ _; simp
      | cons rm rest ih =>
        intro acc hnd hsep
        simp only [List.foldl_cons]
        rw [hupsert_fresh acc rm.msgId _
          (fun p hp => hsep p hp rm (List.mem_cons_self _ _))]
        have hnd2 : (rest.map (fun rm => rm.msgId)).Nodup := by
          simp only [List.map, List.nodup_cons] at hnd
          exact hnd.2
        have hsep2 : ∀ p ∈ acc ++
            [(rm.msgId, ({ delaySeconds := rm.delaySeconds } : RetryEntry))],
            ∀ rm2 ∈ rest, p.1 ≠ rm2.msgId := by
          intro p hp rm2 hrm2
          rcases List.mem_append.mp hp with h1 | h1
          · exact hsep p h1 rm2 (List.mem_cons_of_mem _ hrm2)
          · simp only [List.mem_singleton] at h1
            subst h1
            simp only [List.map, List.nodup_cons] at hnd
            intro hcontra
            have hx : rm.msgId = rm2.msgId := hcontra
            refine hnd.1 ?_
            rw [hx]
            exact List.mem_map_of_mem (fun rm => rm.msgId) hrm2
        rw [ih (acc ++ [(rm.msgId,
          ({ delaySeconds := rm.delaySeconds } : RetryEntry))]) hnd2 hsep2]
        simp
    simpa using hgen respResult.retryMessages [] hnodup (by intro p hp; cases hp)

theorem applyRpcResponse_replaces_witness :
    ((QueueCustomEventImpl.applyRpcResponse freshResult
        { ackAll := true, retryBatchRetry := false,
          retryBatchDelaySeconds := none, explicitAcks := ["m1"],
          retryMessages := [QueueRetryMessageWire.mk "m2" (some 3)],
          outcome := .ok }).1.explicitAcks = ["m1"]) ∧
    ((QueueCustomEventImpl.applyRpcResponse freshResult
        { ackAll := true, retryBatchRetry := false,
          retryBatchDelaySeconds := none, explicitAcks := ["m1"],
          retryMessages := [QueueRetryMessageWire.mk "m2" (some 3)],
          outcome := .ok }).1.retries =
      [("m2", ({ delaySeconds := some 3 } : RetryEntry))]) := by
  obtain ⟨-, -, -, hacks, -, -, hretries, -⟩ :=
    applyRpcResponse_replaces freshResult freshResult
      { ackAll := true, retryBatchRetry := false,
        retryBatchDelaySeconds := none, explicitAcks := ["m1"],
        retryMessages := [QueueRetryMessageWire.mk "m2" (some 3)],
        outcome := .ok }
  exact ⟨hacks, hretries (by decide)⟩

/-! ## The event coordinator's resolution race (`QueueCustomEventImpl::run`)

The enabled path of `run` (`queueConsumerNoWaitForWaitUntil`, queue.c++
lines 592-646) races the handler's promise chain against the scheduled
wall-clock limit and the abort promise with `exclusiveJoin`:
the outcome is decided by whichever of the three signals resolves first.
That race is embedded by making the first-resolved signal an explicit
parameter; the rest of the path (the service-worker fallback that waits
for all background tasks anyway, and the final limit-enforcer override)
is embedded as explicit parameters supplied by those collaborators. -/

/-- The first of the three raced signals to resolve. -/
inductive FirstSignal where
  | handlerCompleted
  | handlerRejected
  | scheduledTimeout
  | abortSignal
deriving DecidableEq, Repr

/-- The outcome contributed by the winning signal (queue.c++ lines
599-621): handler completion (including a returned promise resolving)
maps to OK, a rejection to EXCEPTION, the wall-clock limit to
EXCEEDED_CPU, and the abort promise (resolved or rejected) to
EXCEPTION. -/
def raceOutcome : FirstSignal → EventOutcome
  | .handlerCompleted => .ok
  | .handlerRejected => .exception
  | .scheduledTimeout => .exceededCpu
  | .abortSignal => .exception

/-- The enabled (`queueConsumerNoWaitForWaitUntil`) path of
`QueueCustomEventImpl::run` after the handler was started (queue.c++
lines 592-646): the race decides the outcome; if the outcome is OK and
the worker uses service-worker syntax, the code waits for all background
tasks anyway (`finishScheduled`) and replaces the outcome by the
wait-until status or EXCEEDED_CPU; finally a limit-enforcer report of an
exceeded limit overrides the outcome.  The ledger travels through
untouched. -/
def QueueCustomEventImpl.runNoWaitPath (first : FirstSignal)
    (isServiceWorkerHandler : Bool) (finishCompleted : Bool)
    (waitUntilStatus : EventOutcome) (limitsExceeded : Option EventOutcome)
    (ledger : QueueEventResult) : EventOutcome × QueueEventResult :=
  let outcome := raceOutcome first
  let outcome :=
    if outcome = .ok ∧ isServiceWorkerHandler then
      (if finishCompleted then waitUntilStatus else .exceededCpu)
    else outcome
  let outcome :=
    match limitsExceeded with
    | some status => status
    | none => outcome
  (outcome, ledger)

/-- Claim C4: in the mode where the coordinator waits only on the
handler (`queueConsumerNoWaitForWaitUntil` enabled, exported handler, no
exceeded limit reported by the limit enforcer), the delivery outcome is
determined by the first of the three signals to resolve — handler
completion yields OK, a rejected handler promise yields EXCEPTION, the
wall-clock limit yields EXCEEDED_CPU and the abort signal yields
EXCEPTION — and in all cases (any signal, any mode parameters) the
ledger mutations applied before the race resolved are retained untouched
in the reported result. -/
theorem runNoWaitPath_race (first : FirstSignal) (finishCompleted : Bool)
    (waitUntilStatus : EventOutcome) (ledger : QueueEventResult)
    (isServiceWorkerHandler : Bool) (limitsExceeded : Option EventOutcome) :
    (isServiceWorkerHandler = false → limitsExceeded = none →
      (QueueCustomEventImpl.runNoWaitPath first isServiceWorkerHandler
          finishCompleted waitUntilStatus limitsExceeded ledger).1 =
        raceOutcome first) ∧
    raceOutcome .handlerCompleted = .ok ∧
    raceOutcome .handlerRejected = .exception ∧
    raceOutcome .scheduledTimeout = .exceededCpu ∧
    raceOutcome .abortSignal = .exception ∧
    (QueueCustomEventImpl.runNoWaitPath first isServiceWorkerHandler
        finishCompleted waitUntilStatus limitsExceeded ledger).2 = ledger := by
  refine ⟨?_, rfl, rfl, rfl, rfl, rfl⟩
  intro hsw hlim
  subst hsw
  subst hlim
  unfold QueueCustomEventImpl.runNoWaitPath
  simp

theorem runNoWaitPath_race_witness :
    (QueueCustomEventImpl.runNoWaitPath .handlerCompleted false true
        .ok none freshResult).1 = raceOutcome .handlerCompleted ∧
    (QueueCustomEventImpl.runNoWaitPath .scheduledTimeout false true
        .ok none freshResult).2 = freshResult := by
  obtain ⟨h1, -, -, -, -, -⟩ :=
    runNoWaitPath_race .handlerCompleted true .ok freshResult false none
  obtain ⟨-, -, -, -, -, h2⟩ :=
    runNoWaitPath_race .scheduledTimeout true .ok freshResult false none
  exact ⟨h1 rfl rfl, h2⟩

end Workerd

